import Mathlib

/-!
Verification development for the agent runtime core of this repository.

Each section shallowly embeds one subsystem, translated from the TypeScript
source:

* `Resilience` embeds `ResilientExecutor` (retry, backoff with jitter, and the
  circuit breaker) from `src/runtime/resilience.ts`.
* `Agent` embeds the tool-execution loop, the event bus emissions and the
  wallet integrity guard from `src/agent.ts`.
* `Sched` embeds the scheduler state persistence from `src/runtime/scheduler.ts`
  and `src/runtime/schedulerState.ts`.
* `Mem` embeds the memory manager goal serializer and parser, the
  unique-bullet append and `rememberThis` from `src/memory/manager.ts`.

Machine integers of the source are modelled as `Nat` (all the quantities
involved are non-negative timestamps, counters and durations that stay far
below 2 to the 53, where JavaScript numbers are exact); the jitter ratio and
the random sample of `Math.random()` are modelled as rationals.
-/

namespace Spec2Proof

namespace Util

/-- Whether the first list is a prefix of the second. -/
def isPrefixList : List Char → List Char → Bool
  | [], _ => true
  | _ :: _, [] => false
  | p :: ps, c :: cs => p = c && isPrefixList ps cs

/-- Whether the first list occurs as a contiguous segment of the second. -/
def isInfixList (pat : List Char) : List Char → Bool
  | [] => isPrefixList pat []
  | c :: cs => isPrefixList pat (c :: cs) || isInfixList pat cs

/-- Models `String.prototype.toLowerCase` (exact on the ASCII strings the
embedded code compares). -/
def toLowerStr (s : String) : String := ⟨s.data.map Char.toLower⟩

/-- Models `String.prototype.startsWith`. -/
def startsWithStr (s pat : String) : Bool := isPrefixList pat.data s.data

/-- Models `String.prototype.slice(0, n)` for `n ≥ 0`. -/
def sliceTo (s : String) (n : Nat) : String := ⟨s.data.take n⟩

/-- The whitespace class, modelling the regex class `\s` and the characters
`trim` removes (exact on the space, tab, newline and carriage-return
characters the embedded documents hold). -/
def isWs (c : Char) : Bool := c.isWhitespace

/-- Models `replace(/\s+/g, " ")`: every maximal run of whitespace becomes a
single space. The flag tells whether the previous character was part of a
run. -/
def collapseWs : Bool → List Char → List Char
  | _, [] => []
  | inRun, c :: rest =>
      if isWs c then
        if inRun then collapseWs true rest else ' ' :: collapseWs true rest
      else c :: collapseWs false rest

/-- Models `String.prototype.trim`. -/
def trimChars (l : List Char) : List Char :=
  ((l.dropWhile isWs).reverse.dropWhile isWs).reverse

/-- Models `String.prototype.trimEnd`. -/
def trimRightChars (l : List Char) : List Char := (l.reverse.dropWhile isWs).reverse

/-- Models `String.prototype.trim` on strings. -/
def trimStr (s : String) : String := ⟨trimChars s.data⟩

/-- `normalizeSpace` from `memory/manager.ts`:
`input.replace(/\s+/g, " ").trim()`. -/
def normalizeSpaceChars (l : List Char) : List Char := trimChars (collapseWs false l)

/-- The regex class `\w`: ASCII letters, digits and the underscore. -/
def isWordChar (c : Char) : Bool :=
  ('a' ≤ c && c ≤ 'z') || ('A' ≤ c && c ≤ 'Z') || ('0' ≤ c && c ≤ '9') || c = '_'

/-- `normalizeForCompare` from `memory/manager.ts`: normalize spacing, lower
case, strip backtick, asterisk, underscore and tilde, widen the remaining
non-word non-space characters to spaces, collapse and trim again. -/
def normalizeForCompareChars (l : List Char) : List Char :=
  let s1 := normalizeSpaceChars l
  let s2 := s1.map Char.toLower
  let s3 := s2.filter (fun c => !(c = '`' || c = '*' || c = '_' || c = '~'))
  let s4 := s3.map (fun c => if isWordChar c || isWs c then c else ' ')
  trimChars (collapseWs false s4)

/-- Split on a separator character, modelling `String.prototype.split` with a
one-character separator: `n` separators yield `n + 1` pieces. -/
def splitOnChar (sep : Char) : List Char → List (List Char)
  | [] => [[]]
  | c :: rest =>
      if c = sep then [] :: splitOnChar sep rest
      else
        match splitOnChar sep rest with
        | [] => [[c]]
        | h :: t => (c :: h) :: t

/-- Drop one trailing carriage return, the per-piece effect of splitting on
the regex `/\r?\n/` rather than on the newline alone. -/
def stripCR (l : List Char) : List Char :=
  match l.getLast? with
  | some c => if c = '\r' then l.dropLast else l
  | none => l

/-- Models `split(/\r?\n/)`. -/
def splitLines (l : List Char) : List (List Char) := (splitOnChar '\n' l).map stripCR

/-- Concatenation of a list of lines with newline separators, modelling
`Array.prototype.join("\n")`. -/
def joinLines : List (List Char) → List Char
  | [] => []
  | [l] => l
  | l :: ls => l ++ '\n' :: joinLines ls

/-- Occurrences search: the absolute index of the first occurrence of `pat` at
or after the running index `i`. -/
def findSubAux (pat : List Char) : List Char → Nat → Option Nat
  | [], i => if pat = [] then some i else none
  | c :: cs, i =>
      if isPrefixList pat (c :: cs) then some i else findSubAux pat cs (i + 1)

/-- Models `String.prototype.indexOf(pat, start)` for a non-empty pattern,
with `none` for the -1 result. -/
def indexOfFrom (pat l : List Char) (start : Nat) : Option Nat :=
  findSubAux pat (l.drop start) start

/-- Flat map on lists (concatenation of the images, in order). -/
def flatMapL (f : α → List β) : List α → List β
  | [] => []
  | a :: l => f a ++ flatMapL f l

/-- Newline-free and carriage-return-free content: a single line. -/
def NlFree (l : List Char) : Prop := '\n' ∉ l ∧ '\r' ∉ l

end Util

namespace Resilience

/-- Retry policy, from the `RetryPolicy` interface. The optional `jitterRatio`
field mirrors `jitterRatio?: number`. -/
structure RetryPolicy where
  maxAttempts : Nat
  baseDelayMs : Nat
  maxDelayMs : Nat
  jitterRatio : Option Rat
deriving Repr, DecidableEq

/-- Circuit breaker policy, from the `CircuitBreakerPolicy` interface. -/
structure CircuitBreakerPolicy where
  failureThreshold : Nat
  cooldownMs : Nat
deriving Repr, DecidableEq

/-- Combined policy, from the `ResiliencePolicy` interface. -/
structure ResiliencePolicy where
  retry : RetryPolicy
  circuitBreaker : CircuitBreakerPolicy
deriving Repr, DecidableEq

/-- Per-operation metrics, from the `OperationMetrics` interface. `Option`
models the optional fields that start out absent. -/
structure OperationMetrics where
  total : Nat
  successes : Nat
  failures : Nat
  retries : Nat
  circuitOpenEvents : Nat
  consecutiveFailures : Nat
  lastError : Option String
  lastStartedAt : Option Nat
  lastSucceededAt : Option Nat
  lastFailedAt : Option Nat
deriving Repr, DecidableEq

/-- Per-operation circuit state, from the `CircuitState` interface. -/
structure CircuitState where
  openUntil : Nat
  consecutiveFailures : Nat
deriving Repr, DecidableEq

/-- `initMetrics()` from the source. -/
def initMetrics : OperationMetrics :=
  { total := 0, successes := 0, failures := 0, retries := 0, circuitOpenEvents := 0
    consecutiveFailures := 0, lastError := none, lastStartedAt := none
    lastSucceededAt := none, lastFailedAt := none }

/-- The executor state for one operation name: the entry of the `metrics` map
and the entry of the `circuits` map (`getMetrics` and `getCircuit` create both
with these defaults on first use). -/
structure ExecState where
  metrics : OperationMetrics
  circuit : CircuitState
deriving Repr, DecidableEq

/-- Fresh state, as produced by `getMetrics` and `getCircuit` for an unknown
operation name. -/
def initExecState : ExecState :=
  { metrics := initMetrics, circuit := { openUntil := 0, consecutiveFailures := 0 } }

/-- `withJitter(delayMs, jitterRatio)` from the source; `rand` stands for the
`Math.random()` sample in `[0,1)`. `Math.floor` becomes `Int.floor`. -/
def withJitter (delayMs : Nat) (ratio : Rat) (rand : Rat) : Int :=
  if ratio ≤ 0 then (delayMs : Int)
  else
    let range : Rat := (delayMs : Rat) * ratio
    let lo : Rat := max 0 ((delayMs : Rat) - range)
    let hi : Rat := (delayMs : Rat) + range
    Int.floor (lo + rand * (hi - lo))

/-- One invocation of the wrapped `fn`: whether the promise resolved, the error
message when it rejected, and the value `Date.now()` would return at the moment
the invocation settles. -/
structure Attempt where
  ok : Bool
  msg : String
  time : Nat
deriving Repr, DecidableEq

/-- Result of the `while` loop inside `execute`: either an attempt succeeded,
or all attempts failed. Both carry the metrics as mutated by the loop, the
number of invocations of `fn`, the jittered sleeps performed between attempts,
the running `lastError` local variable, and the settle time of the last
attempt. -/
inductive LoopOut where
  | succeeded (m : OperationMetrics) (calls : Nat) (sleeps : List Int) (time : Nat)
  | failed (m : OperationMetrics) (calls : Nat) (sleeps : List Int)
      (lastError : Option String) (time : Nat)
deriving Repr, DecidableEq

/-- The `while (attempt < maxAttempts)` loop of `execute`, unrolled by fuel.
`attempts n` is the outcome of the n-th invocation of `fn` (1-based) and
`rand n` the `Math.random()` sample used for the sleep after it. The fuel
starts at `maxAttempts` and the invariant `fuel = maxAttempts - attempt` makes
the fuel test coincide with the loop condition. -/
def attemptLoop (p : RetryPolicy) (attempts : Nat → Attempt) (rand : Nat → Rat) :
    Nat → Nat → OperationMetrics → List Int → Option String → Nat → LoopOut
  | 0, attempt, m, sleeps, lastError, lastTime =>
      .failed m attempt sleeps lastError lastTime
  | fuel + 1, attempt, m, sleeps, _lastError, _ =>
      let a := attempts (attempt + 1)
      if a.ok then
        .succeeded
          { m with successes := m.successes + 1, consecutiveFailures := 0
                   lastSucceededAt := some a.time }
          (attempt + 1) sleeps a.time
      else
        let m1 := { m with lastError := some a.msg }
        if attempt + 1 < p.maxAttempts then
          let m2 := { m1 with retries := m1.retries + 1 }
          let delay := min p.maxDelayMs (p.baseDelayMs * 2 ^ attempt)
          let jittered := withJitter delay (p.jitterRatio.getD (1 / 5)) (rand (attempt + 1))
          attemptLoop p attempts rand fuel (attempt + 1) m2 (sleeps ++ [jittered])
            (some a.msg) a.time
        else
          .failed m1 (attempt + 1) sleeps (some a.msg) a.time

/-- What `execute` does, observably: the new state for the operation, the
outcome (value returned, error re-raised, or circuit-open error), how many
times `fn` was invoked and which sleeps were performed. -/
inductive ExecOutcome where
  | circuitOpen (openUntil : Nat)
  | ok
  | err (msg : String)
deriving Repr, DecidableEq

structure ExecResult where
  state : ExecState
  outcome : ExecOutcome
  calls : Nat
  sleeps : List Int
deriving Repr, DecidableEq

/-- `ResilientExecutor.execute(op, fn)` for one operation, translated from the
source. `now` is `Date.now()` at entry; the settle times of the attempts model
the later `Date.now()` calls. -/
def execute (pol : ResiliencePolicy) (op : String) (now : Nat)
    (attempts : Nat → Attempt) (rand : Nat → Rat) (s : ExecState) : ExecResult :=
  if now < s.circuit.openUntil then
    { state := s, outcome := .circuitOpen s.circuit.openUntil, calls := 0, sleeps := [] }
  else
    let m0 := { s.metrics with total := s.metrics.total + 1, lastStartedAt := some now }
    match attemptLoop pol.retry attempts rand pol.retry.maxAttempts 0 m0 [] none now with
    | .succeeded m calls sleeps _ =>
        { state := { metrics := m, circuit := { openUntil := 0, consecutiveFailures := 0 } }
          outcome := .ok, calls := calls, sleeps := sleeps }
    | .failed m calls sleeps lastError t =>
        let m1 := { m with failures := m.failures + 1, lastFailedAt := some t
                           consecutiveFailures := m.consecutiveFailures + 1 }
        let cf := s.circuit.consecutiveFailures + 1
        let msg := lastError.getD ("Operation failed: " ++ op)
        if pol.circuitBreaker.failureThreshold ≤ cf then
          { state :=
              { metrics := { m1 with circuitOpenEvents := m1.circuitOpenEvents + 1 }
                circuit := { openUntil := t + pol.circuitBreaker.cooldownMs
                             consecutiveFailures := 0 } }
            outcome := .err msg, calls := calls, sleeps := sleeps }
        else
          { state := { metrics := m1, circuit := { s.circuit with consecutiveFailures := cf } }
            outcome := .err msg, calls := calls, sleeps := sleeps }

/-- States reachable for one operation by any sequence of `execute` calls,
starting from the fresh state. -/
inductive Reachable (pol : ResiliencePolicy) : ExecState → Prop where
  | init : Reachable pol initExecState
  | step (s : ExecState) (op : String) (now : Nat) (attempts : Nat → Attempt)
      (rand : Nat → Rat) :
      Reachable pol s → Reachable pol (execute pol op now attempts rand s).state

/-- The five metrics counters of the first state are bounded by those of the
second: the monotonicity relation of the spec. -/
def MonoLE (a b : OperationMetrics) : Prop :=
  a.total ≤ b.total ∧ a.successes ≤ b.successes ∧ a.failures ≤ b.failures ∧
    a.retries ≤ b.retries ∧ a.circuitOpenEvents ≤ b.circuitOpenEvents

/-- A function whose every invocation rejects with the message `boom`. -/
def failBoom : Nat → Attempt := fun n => { ok := false, msg := "boom", time := n }

/-- A function whose every invocation resolves at time 10. -/
def okAt10 : Nat → Attempt := fun _ => { ok := true, msg := "", time := 10 }

/-- A constant randomness source. -/
def zeroRand : Nat → Rat := fun _ => 0

/-- A concrete policy: one attempt, threshold five. -/
def polCx5 : ResiliencePolicy :=
  { retry := { maxAttempts := 1, baseDelayMs := 100, maxDelayMs := 1000, jitterRatio := some 0 }
    circuitBreaker := { failureThreshold := 5, cooldownMs := 1000 } }

/-- The boundary policy of the spec with a concrete breaker. -/
def polC6 : ResiliencePolicy :=
  { retry := { maxAttempts := 3, baseDelayMs := 100, maxDelayMs := 1000, jitterRatio := some 0 }
    circuitBreaker := { failureThreshold := 2, cooldownMs := 5000 } }

end Resilience

namespace Agent

/-- A JSON object of tool arguments, as an association list of key and
serialized value. The empty object, the `args` default of `executeToolCalls`,
is `[]`. -/
abbrev Args := List (String × String)

/-- One accumulated tool call, from `ChatCompletionMessageToolCall`: `id`,
`function.name` and the raw `function.arguments` string. -/
structure ToolCall where
  id : String
  name : String
  arguments : String
deriving Repr, DecidableEq

/-- A tool handler `async (argsMap) => string`: it either returns a string or
throws (the `Except.error` carries the thrown message). -/
abbrev Handler := Args → Except String String

/-- The `AVAILABLE_TOOLS` record: a partial map from tool name to handler. -/
abbrev Tools := String → Option Handler

/-- `JSON.parse` on an argument string: `none` models a parse exception. -/
abbrev ArgParse := String → Option Args

/-- Observable actions of a turn. `toolStart` and `toolEnd` are the
`agentBus.emitToolStart` and `agentBus.emitToolEnd` emissions (`toolEnd`
carries `success = not(output startsWith Error)` and the output preview,
`output.slice(0, 240)`; the wall-clock duration is outside the model).
`handlerRun` records an actual invocation of a tool handler function and the
arguments it received. -/
inductive AgentEvent where
  | toolStart (tool : String) (args : Args)
  | toolEnd (tool : String) (success : Bool) (outputPreview : String)
  | handlerRun (tool : String) (args : Args)
deriving Repr, DecidableEq

/-- A tool-role message pushed back to the model. -/
structure ToolMsg where
  tool_call_id : String
  content : String
deriving Repr, DecidableEq

/-- The body of the `for` loop of `executeToolCalls` for one tool call,
translated from the source: parse the arguments (a parse failure is caught and
leaves the empty object), emit `tool:start`, run the handler if the tool
exists (a thrown error becomes `Error executing <name>: <msg>`, a missing tool
becomes `Unknown tool: <name>`), emit `tool:end`. -/
def execOneToolCall (tools : Tools) (parse : ArgParse) (tc : ToolCall) :
    ToolMsg × List AgentEvent :=
  let args : Args := (parse tc.arguments).getD []
  let run : String × List AgentEvent :=
    match tools tc.name with
    | some fn =>
        match fn args with
        | .ok out => (out, [.handlerRun tc.name args])
        | .error msg =>
            ("Error executing " ++ tc.name ++ ": " ++ msg, [.handlerRun tc.name args])
    | none => ("Unknown tool: " ++ tc.name, [])
  let output := run.1
  ({ tool_call_id := tc.id, content := output },
    .toolStart tc.name args :: run.2 ++
      [.toolEnd tc.name (!Util.startsWithStr output "Error") (Util.sliceTo output 240)])

/-- `executeToolCalls(toolCalls)`: the tool messages pushed to the dialogue and
the events emitted, in order. -/
def executeToolCalls (tools : Tools) (parse : ArgParse) :
    List ToolCall → List ToolMsg × List AgentEvent
  | [] => ([], [])
  | tc :: rest =>
      let one := execOneToolCall tools parse tc
      let more := executeToolCalls tools parse rest
      (one.1 :: more.1, one.2 ++ more.2)

/-- Substring test, modelling `String.prototype.includes` for a non-empty
pattern. -/
def strContains (s pat : String) : Bool := Util.isInfixList pat.data s.data

/-- `detectWalletGuardIntent(userText)` from the source. -/
def detectWalletGuardIntent (userText : String) : Option String :=
  let t := Util.toLowerStr userText
  let walletish := strContains t "wallet" || strContains t "address" ||
    strContains t "balance" || strContains t "eth"
  if !walletish then none
  else if strContains t "address" then some "wallet_address"
  else if strContains t "balance" || strContains t "how much" then some "wallet_balance"
  else none

/-- One accumulated streaming completion of the model: the concatenated
`content` deltas and the tool calls assembled from the index-keyed
accumulator. An empty `toolCalls` list is the final text response. -/
structure Round where
  content : String
  toolCalls : List ToolCall
deriving Repr, DecidableEq

/-- The final-response branch of `runAgent`, translated from the source: the
draft reply defaults to `(no response)`, then the wallet hard guard runs. When
the guard intent is set and no `wallet_`-named tool call was executed this
turn, the guard calls `AVAILABLE_TOOLS[intent]({})` directly: the handler (if
the tool exists) runs with the empty object and its output is concatenated
after the draft; a throw (or a missing tool, which throws on the call of
`undefined`) is swallowed and keeps the draft. No bus event is emitted on this
path. -/
def finalizeReply (tools : Tools) (intent : Option String) (walletCalled : Bool)
    (contentAccum : String) : String × List AgentEvent :=
  let reply := if contentAccum = "" then "(no response)" else contentAccum
  match intent, walletCalled with
  | some name, false =>
      match tools name with
      | some fn =>
          match fn [] with
          | .ok guarded =>
              (reply ++ "\n\n(Verified via " ++ name ++ ")\n" ++ guarded,
                [.handlerRun name []])
          | .error _ => (reply, [.handlerRun name []])
      | none => (reply, [])
  | _, _ => (reply, [])

/-- The `while (true)` tool loop of `runAgent`, driven by the list of
accumulated completions. A round with tool calls updates the
`walletToolCalledInTurn` flag, executes the calls and loops; a round without
tool calls is the final response. An exhausted list stands for a final
response with empty content. -/
def runAgentLoop (tools : Tools) (parse : ArgParse) (intent : Option String) :
    Bool → List Round → String × List AgentEvent
  | walletCalled, [] => finalizeReply tools intent walletCalled ""
  | walletCalled, r :: rest =>
      if r.toolCalls.isEmpty then
        finalizeReply tools intent walletCalled r.content
      else
        let walletCalled2 := walletCalled ||
          r.toolCalls.any (fun tc => Util.startsWithStr tc.name "wallet_")
        let exec := executeToolCalls tools parse r.toolCalls
        let rec' := runAgentLoop tools parse intent walletCalled2 rest
        (rec'.1, exec.2 ++ rec'.2)

/-- `runAgent`, restricted to the behavior the claims are about: the wallet
guard intent is computed from the user text, then the tool loop runs over the
accumulated completions. Compaction, skill selection and prompt assembly do
not touch tool execution and are omitted. -/
def runAgent (tools : Tools) (parse : ArgParse) (userText : String)
    (rounds : List Round) : String × List AgentEvent :=
  runAgentLoop tools parse (detectWalletGuardIntent userText) false rounds

/-- Number of `tool:start` events in a trace. -/
def countStarts : List AgentEvent → Nat
  | [] => 0
  | .toolStart _ _ :: rest => countStarts rest + 1
  | _ :: rest => countStarts rest

/-- Number of `tool:end` events in a trace. -/
def countEnds : List AgentEvent → Nat
  | [] => 0
  | .toolEnd _ _ _ :: rest => countEnds rest + 1
  | _ :: rest => countEnds rest

/-- Number of handler invocations of a given tool in a trace. -/
def countRunsOf (tool : String) : List AgentEvent → Nat
  | [] => 0
  | .handlerRun t _ :: rest =>
      countRunsOf tool rest + if t = tool then 1 else 0
  | _ :: rest => countRunsOf tool rest

/-- Number of `tool:start` events of a given tool in a trace. -/
def countStartsOf (tool : String) : List AgentEvent → Nat
  | [] => 0
  | .toolStart t _ :: rest =>
      countStartsOf tool rest + if t = tool then 1 else 0
  | _ :: rest => countStartsOf tool rest

/-- Number of tool invocations the loop dispatches through
`executeToolCalls`: the calls of every round before the final text
response. -/
def executedCalls : List Round → Nat
  | [] => 0
  | r :: rest => if r.toolCalls.isEmpty then 0 else r.toolCalls.length + executedCalls rest

/-- Whether a `wallet_`-named tool call is executed during the turn (the value
of the `walletToolCalledInTurn` flag at the final response). -/
def walletCalledDuring : List Round → Bool
  | [] => false
  | r :: rest =>
      if r.toolCalls.isEmpty then false
      else r.toolCalls.any (fun tc => Util.startsWithStr tc.name "wallet_") || walletCalledDuring rest

/-- The content of the final text response of a turn (with the
`(no response)` default applied). -/
def finalContent : List Round → String
  | [] => "(no response)"
  | r :: rest =>
      if r.toolCalls.isEmpty then (if r.content = "" then "(no response)" else r.content)
      else finalContent rest

/-- A registry with one total echo tool. -/
def echoTools : Tools := fun n =>
  if n = "echo" then some (fun _ => .ok "42") else none

/-- A concrete registry holding one wallet tool, for the concrete executions
below. -/
def walletTools : Tools := fun n =>
  if n = "wallet_balance" then some (fun _ => .ok "Balance: 0.5 ETH") else none

end Agent

namespace Sched

/-- A lane name, from `LaneName` in `taskQueue.ts`. -/
inductive LaneName where
  | fast
  | slow
  | background
deriving Repr, DecidableEq

/-- A one-time reminder record, from the `OneTimeReminder` interface. -/
structure OneTimeReminder where
  id : String
  prompt : String
  runAtMs : Nat
  lane : LaneName
  enabled : Bool
deriving Repr, DecidableEq

/-- The runtime heartbeat configuration, the shape of `runtimeHeartbeat`. -/
structure HeartbeatState where
  enabled : Bool
  intervalMinutes : Nat
  prompt : String
deriving Repr, DecidableEq

/-- The full persisted scheduler state: the `PersistedSchedulerState` payload
`saveSchedulerState` receives, plus the `updatedAt` stamp it adds. -/
structure PersistedSchedulerState where
  nextRunById : List (String × Nat)
  oneTimeReminders : List OneTimeReminder
  heartbeat : HeartbeatState
  updatedAt : String
deriving Repr, DecidableEq

/-- The file-system calls the scheduler persistence performs, in order. A
`writeFile` carries the state value whose `JSON.stringify` serialization is
written; `rename` models `fs.renameSync`, the operation an atomic
write-temp-then-rename replacement would use. -/
inductive FsOp where
  | mkdirRecursive (path : String)
  | writeFile (path : String) (content : PersistedSchedulerState)
  | rename (src : String) (dst : String)
deriving Repr, DecidableEq

def FsOp.isRename : FsOp → Bool
  | .rename _ _ => true
  | _ => false

/-- `STATE_DIR` from `schedulerState.ts`, relative to the project root. -/
def STATE_DIR : String := "memory/scheduler"

/-- `STATE_FILE` from `schedulerState.ts`, relative to the project root. -/
def STATE_FILE : String := "memory/scheduler/state.json"

/-- `saveSchedulerState(state)` from `schedulerState.ts`: `fs.mkdirSync` of
the state directory, then one direct `fs.writeFileSync` of the full payload
with `updatedAt` added. `nowIso` is `new Date().toISOString()`. -/
def saveSchedulerState (nextRun : List (String × Nat)) (oneTime : List OneTimeReminder)
    (hb : HeartbeatState) (nowIso : String) : List FsOp :=
  [.mkdirRecursive STATE_DIR,
   .writeFile STATE_FILE
     { nextRunById := nextRun, oneTimeReminders := oneTime, heartbeat := hb
       updatedAt := nowIso }]

/-- The in-memory module state of `scheduler.ts`: the `nextRunById` and
`oneTimeById` maps (association lists in insertion order, as a `Map`
iterates), the runtime heartbeat and the `running` set. -/
structure SchedulerRuntime where
  nextRunById : List (String × Nat)
  oneTimeById : List OneTimeReminder
  heartbeat : HeartbeatState
  running : List String
deriving Repr, DecidableEq

/-- `Map.prototype.get` on the next-run map. -/
def mapGet (l : List (String × Nat)) (k : String) : Option Nat :=
  match l with
  | [] => none
  | (k', v) :: rest => if k' = k then some v else mapGet rest k

/-- `Map.prototype.set` on the next-run map: replace in place, or append. -/
def mapSet (l : List (String × Nat)) (k : String) (v : Nat) : List (String × Nat) :=
  match l with
  | [] => [(k, v)]
  | (k', v') :: rest => if k' = k then (k, v) :: rest else (k', v') :: mapSet rest k v

/-- `Map.prototype.delete` on the next-run map. -/
def mapDelete (l : List (String × Nat)) (k : String) : List (String × Nat) :=
  match l with
  | [] => []
  | (k', v') :: rest => if k' = k then rest else (k', v') :: mapDelete rest k

/-- `Map.prototype.set` on the one-time map, keyed by `id`. -/
def otSet (l : List OneTimeReminder) (r : OneTimeReminder) : List OneTimeReminder :=
  match l with
  | [] => [r]
  | r' :: rest => if r'.id = r.id then r :: rest else r' :: otSet rest r

/-- `Map.prototype.delete` on the one-time map: the shrunk list and whether an
entry was removed. -/
def otDelete (l : List OneTimeReminder) (id : String) : List OneTimeReminder × Bool :=
  match l with
  | [] => ([], false)
  | r' :: rest =>
      if r'.id = id then (rest, true)
      else
        let d := otDelete rest id
        (r' :: d.1, d.2)

/-- Stable insertion for the ascending `runAtMs` sort of `persistState`. -/
def insertByRunAt (r : OneTimeReminder) : List OneTimeReminder → List OneTimeReminder
  | [] => [r]
  | h :: t => if r.runAtMs < h.runAtMs then r :: h :: t else h :: insertByRunAt r t

/-- The stable `sort((a, b) => a.runAtMs - b.runAtMs)` inside `persistState`. -/
def sortByRunAt (l : List OneTimeReminder) : List OneTimeReminder :=
  l.foldr insertByRunAt []

/-- `persistState()` from `scheduler.ts`: snapshot the full runtime state (one
time reminders sorted by `runAtMs`) and hand it to `saveSchedulerState`. -/
def persistState (rt : SchedulerRuntime) (nowIso : String) : List FsOp :=
  saveSchedulerState rt.nextRunById (sortByRunAt rt.oneTimeById) rt.heartbeat nowIso

def HEARTBEAT_ID : String := "self-heartbeat"

def MIN_INTERVAL_MINUTES : Nat := 1

/-- `setHeartbeat(intervalMinutes, prompt?)`: enable, clamp the interval
(`Math.floor` is the identity on the `Nat` model), adopt a non-blank prompt,
drop the heartbeat next-run entry, persist. Returns the new runtime state and
the file-system trace. -/
def setHeartbeat (rt : SchedulerRuntime) (intervalMinutes : Nat) (prompt : Option String)
    (nowIso : String) : SchedulerRuntime × List FsOp :=
  let newPrompt :=
    match prompt with
    | some p => if Util.trimStr p ≠ "" then Util.trimStr p else rt.heartbeat.prompt
    | none => rt.heartbeat.prompt
  let hb : HeartbeatState :=
    { enabled := true, intervalMinutes := max MIN_INTERVAL_MINUTES intervalMinutes
      prompt := newPrompt }
  let rt' := { rt with heartbeat := hb, nextRunById := mapDelete rt.nextRunById HEARTBEAT_ID }
  (rt', persistState rt' nowIso)

/-- `disableHeartbeat()`: disable, drop the heartbeat next-run entry,
persist. -/
def disableHeartbeat (rt : SchedulerRuntime) (nowIso : String) :
    SchedulerRuntime × List FsOp :=
  let rt' :=
    { rt with heartbeat := { rt.heartbeat with enabled := false }
              nextRunById := mapDelete rt.nextRunById HEARTBEAT_ID }
  (rt', persistState rt' nowIso)

/-- `scheduleOneTimeReminderAt(runAtMs, prompt, lane)`: validate, insert,
persist. `freshId` stands for the generated `once-…` identifier; `Math.floor`
and the finiteness test are the identity on the `Nat` model. Throws become
`Except.error`. -/
def scheduleOneTimeReminderAt (rt : SchedulerRuntime) (runAtMs : Nat) (prompt : String)
    (lane : LaneName) (now : Nat) (freshId : String) (nowIso : String) :
    Except String (SchedulerRuntime × String × List FsOp) :=
  let safePrompt := Util.trimStr prompt
  if safePrompt = "" then .error "Prompt is required."
  else if runAtMs ≤ now + 2000 then .error "runAt must be in the future."
  else
    let r : OneTimeReminder :=
      { id := freshId, prompt := safePrompt, runAtMs := runAtMs, lane := lane
        enabled := true }
    let rt' := { rt with oneTimeById := otSet rt.oneTimeById r }
    .ok (rt', freshId, persistState rt' nowIso)

/-- `cancelOneTimeReminder(id)`: delete, and persist only when an entry was
present. -/
def cancelOneTimeReminder (rt : SchedulerRuntime) (id : String) (nowIso : String) :
    SchedulerRuntime × Bool × List FsOp :=
  let d := otDelete rt.oneTimeById id
  let rt' := { rt with oneTimeById := d.1 }
  (rt', d.2, if d.2 then persistState rt' nowIso else [])

/-- A configured recurring reminder, from `config.scheduler.reminders`. -/
structure ConfigReminder where
  id : String
  prompt : String
  intervalMinutes : Nat
  lane : LaneName
  enabled : Bool
deriving Repr, DecidableEq

/-- The scheduler slice of the configuration that `tick` consumes. -/
structure SchedulerConfig where
  enabled : Bool
  reminders : List ConfigReminder
deriving Repr, DecidableEq

/-- A reminder of the effective recurring set, from `RuntimeReminder`. -/
structure RuntimeReminder where
  id : String
  prompt : String
  intervalMinutes : Nat
  lane : LaneName
  enabled : Bool
deriving Repr, DecidableEq

/-- `normalizeReminders()`: the enabled configured reminders with clamped
intervals, plus the synthetic heartbeat reminder when enabled. -/
def normalizeReminders (cfg : SchedulerConfig) (hb : HeartbeatState) :
    List RuntimeReminder :=
  let configured := (cfg.reminders.filter (fun r => r.enabled)).map
    (fun r => ({ id := r.id, prompt := r.prompt
                 intervalMinutes := max MIN_INTERVAL_MINUTES r.intervalMinutes
                 lane := r.lane, enabled := r.enabled } : RuntimeReminder))
  if hb.enabled then
    configured ++
      [{ id := HEARTBEAT_ID, prompt := hb.prompt, intervalMinutes := hb.intervalMinutes
         lane := .background, enabled := true }]
  else configured

def toMs (minutes : Nat) : Nat := minutes * 60 * 1000

/-- The body of the recurring loop of `tick()` for one reminder: initialize a
missing next-run entry (and persist), skip when not yet due, otherwise advance
the next-run entry, persist, and fire `runReminder` (whose synchronous prefix
checks and updates the `running` set before suspending). The accumulator
carries the runtime state, the file-system trace and the ids handed to the
executor. -/
def tickReminder (now : Nat) (nowIso : String)
    (acc : SchedulerRuntime × List FsOp × List String) (r : RuntimeReminder) :
    SchedulerRuntime × List FsOp × List String :=
  let rt := acc.1
  let ops := acc.2.1
  let runs := acc.2.2
  if !r.enabled then acc
  else
    match mapGet rt.nextRunById r.id with
    | none =>
        let rt' := { rt with nextRunById := mapSet rt.nextRunById r.id (now + toMs r.intervalMinutes) }
        (rt', ops ++ persistState rt' nowIso, runs)
    | some nextRun =>
        if now < nextRun then acc
        else
          let rt' := { rt with nextRunById := mapSet rt.nextRunById r.id (now + toMs r.intervalMinutes) }
          if r.id ∈ rt'.running then (rt', ops ++ persistState rt' nowIso, runs)
          else
            ({ rt' with running := rt'.running ++ [r.id] },
              ops ++ persistState rt' nowIso, runs ++ [r.id])

/-- The body of the one-time loop of `tick()` for one due reminder: skip when
already running, otherwise remove from state, persist, and fire. -/
def tickOneTime (nowIso : String)
    (acc : SchedulerRuntime × List FsOp × List String) (r : OneTimeReminder) :
    SchedulerRuntime × List FsOp × List String :=
  let rt := acc.1
  let ops := acc.2.1
  let runs := acc.2.2
  if r.id ∈ rt.running then acc
  else
    let rt' := { rt with oneTimeById := (otDelete rt.oneTimeById r.id).1 }
    ({ rt' with running := rt'.running ++ [r.id] },
      ops ++ persistState rt' nowIso, runs ++ [r.id])

/-- `tick()`: the recurring pass over the effective reminder set, then the
one-time pass over the reminders due at `now` (the due list is snapshot once,
as `Array.from(...).filter(...)` does). -/
def tick (cfg : SchedulerConfig) (now : Nat) (nowIso : String) (rt : SchedulerRuntime) :
    SchedulerRuntime × List FsOp × List String :=
  if !cfg.enabled then (rt, [], [])
  else
    let reminders := normalizeReminders cfg rt.heartbeat
    let acc1 := reminders.foldl (tickReminder now nowIso) (rt, [], [])
    let due := acc1.1.oneTimeById.filter (fun r => r.enabled && r.runAtMs ≤ now)
    due.foldl (tickOneTime nowIso) acc1

/-- The rename operations of a trace. -/
def renamesOf : List FsOp → List (String × String)
  | [] => []
  | .rename a b :: rest => (a, b) :: renamesOf rest
  | _ :: rest => renamesOf rest

/-- The write operations of a trace. -/
def writesOf : List FsOp → List (String × PersistedSchedulerState)
  | [] => []
  | .writeFile p c :: rest => (p, c) :: writesOf rest
  | _ :: rest => writesOf rest

/-- A concrete runtime state with one recurring next-run entry. -/
def rtCx : SchedulerRuntime :=
  { nextRunById := [("ping", 60000)], oneTimeById := []
    heartbeat := { enabled := false, intervalMinutes := 1, prompt := "hb" }, running := [] }

/-- A trace that is a concatenation of full-state persists: what every
scheduler mutation produces. -/
def IsPersistSeq (nowIso : String) (ops : List FsOp) : Prop :=
  ∃ rts : List SchedulerRuntime, ops = Util.flatMapL (fun rt => persistState rt nowIso) rts

end Sched

namespace Mem

/-- Goal lifecycle status, from the `GoalStatus` union type. -/
inductive GoalStatus where
  | active
  | completed
  | paused
  | cancelled
deriving Repr, DecidableEq

/-- Progress note source, from the `GoalProgressSource` union type. -/
inductive GoalSource where
  | user
  | assistant
  | system
deriving Repr, DecidableEq

/-- A progress entry, from the `GoalProgressEntry` interface. `entryAt` is the
source field `at` (a Lean keyword). -/
structure GoalProgressEntry where
  entryAt : String
  source : GoalSource
  note : String
deriving Repr, DecidableEq

/-- A goal record, from the `GoalRecord` interface. -/
structure GoalRecord where
  id : String
  title : String
  status : GoalStatus
  createdAt : String
  updatedAt : String
  tags : List String
  progress : List GoalProgressEntry
deriving Repr, DecidableEq

/-- The goals store, from the `GoalsState` interface. -/
structure GoalsState where
  version : Nat
  goals : List GoalRecord
deriving Repr, DecidableEq

def GOAL_PROGRESS_LIMIT : Nat := 24

def statusString : GoalStatus → String
  | .active => "active"
  | .completed => "completed"
  | .paused => "paused"
  | .cancelled => "cancelled"

def sourceString : GoalSource → String
  | .user => "user"
  | .assistant => "assistant"
  | .system => "system"

/-- The `safeNote` of the serializer:
`normalizeSpace(item.note).replace(/\|/g, "/")`. -/
def safeNote (note : String) : List Char :=
  (Util.normalizeSpaceChars note.data).map (fun c => if c = '|' then '/' else c)

/-- One serialized progress line: `- [at] (source) note`. -/
def progressLine (p : GoalProgressEntry) : List Char :=
  "- [".data ++ p.entryAt.data ++ "] (".data ++ (sourceString p.source).data ++
    ") ".data ++ safeNote p.note

/-- `Array.prototype.join(", ")` on the tags. -/
def joinComma : List (List Char) → List Char
  | [] => []
  | [t] => t
  | t :: ts => t ++ ", ".data ++ joinComma ts

/-- The serialized lines of one goal, in the order the serializer pushes
them. -/
def goalBlock (g : GoalRecord) : List (List Char) :=
  ["## Goal: ".data ++ g.title.data,
   "- id: ".data ++ g.id.data,
   "- status: ".data ++ (statusString g.status).data,
   "- created_at: ".data ++ g.createdAt.data,
   "- updated_at: ".data ++ g.updatedAt.data,
   "- tags: ".data ++ joinComma (g.tags.map String.data),
   "### Progress".data] ++
  (match g.progress with
   | [] => ["- [n/a] (system) no progress logged".data]
   | ps => ps.map progressLine) ++ [[]]

/-- Stable insertion for the descending `updatedAt` sort of the serializer
(the comparator `b.updatedAt.localeCompare(a.updatedAt)`, modelled by the
code-point order of the ISO strings). -/
def insertByUpdatedDesc (g : GoalRecord) : List GoalRecord → List GoalRecord
  | [] => [g]
  | h :: t => if g.updatedAt < h.updatedAt then h :: insertByUpdatedDesc g t else g :: h :: t

/-- The stable descending sort by `updatedAt` of the serializer. -/
def sortByUpdatedDesc (l : List GoalRecord) : List GoalRecord :=
  l.foldr insertByUpdatedDesc []

/-- The fixed leading lines the serializer pushes. -/
def headerLines : List (List Char) :=
  ["# Goals Memory".data, [], "Persistent mission tracking for Oasis.".data, [],
   "## Goals".data, []]

/-- All lines of `serializeGoalStateMarkdown`, before joining. -/
def serializeLines (s : GoalsState) : List (List Char) :=
  headerLines ++ Util.flatMapL goalBlock (sortByUpdatedDesc s.goals)

/-- `serializeGoalStateMarkdown(state)`:
`lines.join("\n").trimEnd() + "\n"`. -/
def serializeGoalStateMarkdown (s : GoalsState) : String :=
  ⟨Util.trimRightChars (Util.joinLines (serializeLines s)) ++ ['\n']⟩

/-- Strip an exact literal from the front of a line. -/
def stripLit : List Char → List Char → Option (List Char)
  | [], l => some l
  | _ :: _, [] => none
  | p :: ps, c :: cs => if p = c then stripLit ps cs else none

/-- The capture of a trailing `\s+(.+)` on the rest of a line: at least one
whitespace character, then at least one captured character. With greedy
backtracking the capture starts at the first non-whitespace character, or is
the last character alone when the rest is all whitespace. -/
def wsCapture (l : List Char) : Option (List Char) :=
  match l with
  | [] => none
  | c :: _ =>
      if Util.isWs c then
        match l.dropWhile Util.isWs with
        | [] => if 2 ≤ l.length then some [(l.getLast?).getD ' '] else none
        | r => some r
      else none

/-- A `^<lit>\s+(.+)$` directive matcher. -/
def matchKeyVal (lit : String) (line : List Char) : Option (List Char) :=
  (stripLit lit.data line).bind wsCapture

/-- All decompositions `line = before ++ close-bracket :: after`, shortest
`before` first. -/
def bracketSplits : List Char → List (List Char × List Char)
  | [] => []
  | c :: cs =>
      let tailSplits := (bracketSplits cs).map (fun p => (c :: p.1, p.2))
      if c = ']' then ([], cs) :: tailSplits else tailSplits

/-- The source alternation `(user|assistant|system)` with its closing
parenthesis. -/
def matchSource (l : List Char) : Option (GoalSource × List Char) :=
  match stripLit "(user)".data l with
  | some r => some (.user, r)
  | none =>
      match stripLit "(assistant)".data l with
      | some r => some (.assistant, r)
      | none =>
          match stripLit "(system)".data l with
          | some r => some (.system, r)
          | none => none

/-- The tail of the progress pattern after the closing bracket:
`\s+\((user|assistant|system)\)\s+(.+)$`. -/
def parseAfterBracket (tail : List Char) : Option (GoalSource × List Char) :=
  match tail with
  | [] => none
  | c :: _ =>
      if Util.isWs c then
        match matchSource (tail.dropWhile Util.isWs) with
        | some (src, rest) => (wsCapture rest).map (fun cap => (src, cap))
        | none => none
      else none

/-- Greedy selection over the bracket decompositions: the regex `(.+)\]`
backtracks from the longest candidate, so the last valid decomposition
wins. -/
def lastValidSplit : List (List Char × List Char) →
    Option (List Char × GoalSource × List Char)
  | [] => none
  | (a, b) :: rest =>
      match lastValidSplit rest with
      | some r => some r
      | none =>
          if a.isEmpty then none
          else
            match parseAfterBracket b with
            | some (src, note) => some (a, src, note)
            | none => none

/-- The progress line pattern
`^- \[(.+)\]\s+\((user|assistant|system)\)\s+(.+)$`. -/
def matchProgress (line : List Char) : Option (List Char × GoalSource × List Char) :=
  (stripLit "- [".data line).bind (fun rest => lastValidSplit (bracketSplits rest))

def statusOfChars (l : List Char) : Option GoalStatus :=
  if l = "active".data then some .active
  else if l = "completed".data then some .completed
  else if l = "paused".data then some .paused
  else if l = "cancelled".data then some .cancelled
  else none

/-- The parser state: the goal under construction and the finished goals. -/
structure ParseAcc where
  current : Option GoalRecord
  goals : List GoalRecord
deriving Repr, DecidableEq

/-- `Array.prototype.slice(-n)`. -/
def takeLast (n : Nat) (l : List α) : List α := l.drop (l.length - n)

/-- `flushCurrent` of the parser: prune blank notes, keep the last
`GOAL_PROGRESS_LIMIT` entries, push the goal. -/
def flushCurrent (acc : ParseAcc) : ParseAcc :=
  match acc.current with
  | none => acc
  | some g =>
      let pruned := takeLast GOAL_PROGRESS_LIMIT
        (g.progress.filter (fun p => Util.trimChars p.note.data ≠ []))
      { current := none, goals := acc.goals ++ [{ g with progress := pruned }] }

/-- The body of the line loop of `parseGoalStateMarkdown`, translated match by
match. `freshId` and `freshTs` stand for the generated identifier and
`nowIso()` of a new goal header. -/
def parseLine (freshId freshTs : String) (acc : ParseAcc) (line : List Char) : ParseAcc :=
  match matchKeyVal "## Goal:" line with
  | some cap =>
      let acc1 := flushCurrent acc
      let g0 : GoalRecord :=
        { id := freshId, title := ⟨Util.normalizeSpaceChars cap⟩, status := .active
          createdAt := freshTs, updatedAt := freshTs, tags := [], progress := [] }
      { acc1 with current := some g0 }
  | none =>
  match acc.current with
  | none => acc
  | some g =>
  match matchKeyVal "- id:" line with
  | some cap => { acc with current := some { g with id := ⟨Util.normalizeSpaceChars cap⟩ } }
  | none =>
  match matchKeyVal "- status:" line with
  | some cap =>
      match statusOfChars ((Util.normalizeSpaceChars cap).map Char.toLower) with
      | some st => { acc with current := some { g with status := st } }
      | none => acc
  | none =>
  match matchKeyVal "- created_at:" line with
  | some cap =>
      { acc with current := some { g with createdAt := ⟨Util.normalizeSpaceChars cap⟩ } }
  | none =>
  match matchKeyVal "- updated_at:" line with
  | some cap =>
      { acc with current := some { g with updatedAt := ⟨Util.normalizeSpaceChars cap⟩ } }
  | none =>
  match (stripLit "- tags:".data line).map (fun r => r.dropWhile Util.isWs) with
  | some cap =>
      let rawTags := Util.normalizeSpaceChars cap
      let tags := if rawTags = [] then ([] : List (List Char))
        else ((Util.splitOnChar ',' rawTags).map Util.normalizeSpaceChars).filter
          (fun t => t ≠ [])
      { acc with current := some { g with tags := tags.map (fun t => (⟨t⟩ : String)) } }
  | none =>
  match matchProgress line with
  | some (a, src, noteCap) =>
      let atv := Util.normalizeSpaceChars a
      let note := Util.normalizeSpaceChars noteCap
      if note ≠ [] ∧ atv ≠ "n/a".data then
        let entry : GoalProgressEntry := { entryAt := ⟨atv⟩, source := src, note := ⟨note⟩ }
        { acc with current := some { g with progress := g.progress ++ [entry] } }
      else acc
  | none => acc

/-- A well-formed stored string: a non-empty fixed point of the whitespace
normalization. Every field the memory manager itself writes into a goal
record has this shape. -/
def wfStrB (s : String) : Bool :=
  decide (Util.normalizeSpaceChars s.data = s.data) && decide (s.data ≠ [])

/-- A well-formed tag: normalized, non-empty and comma-free. -/
def wfTagB (t : String) : Bool := wfStrB t && decide (',' ∉ t.data)

/-- A well-formed progress entry: normalized non-empty stamp and note, no
closing bracket in either, no pipe in the note, and a stamp other than the
`n/a` placeholder. -/
def wfEntryB (p : GoalProgressEntry) : Bool :=
  wfStrB p.entryAt && decide (']' ∉ p.entryAt.data) && decide (p.entryAt ≠ "n/a") &&
    wfStrB p.note && decide (']' ∉ p.note.data) && decide ('|' ∉ p.note.data)

/-- A well-formed goal record: all string fields normalized and non-empty,
tags comma-free, at most `GOAL_PROGRESS_LIMIT` well-formed progress
entries. -/
def wellFormedGoal (g : GoalRecord) : Bool :=
  wfStrB g.id && wfStrB g.title && wfStrB g.createdAt && wfStrB g.updatedAt &&
    g.tags.all wfTagB && decide (g.progress.length ≤ GOAL_PROGRESS_LIMIT) &&
    g.progress.all wfEntryB

def wellFormedGoals (gs : List GoalRecord) : Bool := gs.all wellFormedGoal

/-- A concrete goal whose single progress note holds a pipe character. -/
def goalCx : GoalRecord :=
  { id := "goal_1", title := "ship it", status := .active
    createdAt := "2024-01-01T00:00:00.000Z", updatedAt := "2024-01-02T00:00:00.000Z"
    tags := [], progress := [{ entryAt := "2024-01-01T00:00:00.000Z", source := .user
                               note := "a|b" }] }

/-- A concrete well-formed goals state. -/
def goalWf : GoalRecord :=
  { id := "goal_abc", title := "ship the dashboard", status := .active
    createdAt := "2024-01-01T00:00:00.000Z", updatedAt := "2024-01-02T00:00:00.000Z"
    tags := ["ops", "ui"]
    progress := [{ entryAt := "2024-01-01T00:00:00.000Z", source := .user
                   note := "Created goal: ship the dashboard" },
                 { entryAt := "2024-01-02T00:00:00.000Z", source := .assistant
                   note := "Progress: built sidebar" }] }

/-- `parseGoalStateMarkdown(raw)`. -/
def parseGoalStateMarkdown (freshId freshTs : String) (raw : String) : GoalsState :=
  let lines := Util.splitLines raw.data
  let acc := lines.foldl (parseLine freshId freshTs) { current := none, goals := [] }
  { version := 2, goals := (flushCurrent acc).goals }

/-- The tags computed by the `- tags:` branch of the parser from the raw
remainder of the line. -/
def tagsOfRaw (X : List Char) : List String :=
  (if Util.normalizeSpaceChars (X.dropWhile Util.isWs) = []
    then ([] : List (List Char))
    else ((Util.splitOnChar ','
        (Util.normalizeSpaceChars (X.dropWhile Util.isWs))).map
          Util.normalizeSpaceChars).filter (fun t => t ≠ [])).map
    (fun t => (⟨t⟩ : String))

/-- `DEFAULT_SEMANTIC_DOC` from the source. -/
def DEFAULT_SEMANTIC_DOC : String :=
  "# Oasis Memory\n\n## User Preferences\n\n## Known Facts\n\n## Workflow Notes\n"

/-- `DEFAULT_PROCEDURAL_DOC` from the source. -/
def DEFAULT_PROCEDURAL_DOC : String :=
  "# Procedural Memory\n\nRules and learned behaviors that guide how Oasis operates.\n\n## Operating Rules\n\n## Learned Behaviors\n"

/-- `collectBullets(markdown)`: the normalized comparison forms of the bullet
lines, as the membership domain of the source `Set`. -/
def collectBullets (markdown : String) : List (List Char) :=
  (((Util.splitOnChar '\n' markdown.data).map Util.trimChars).filter
      (fun l => Util.isPrefixList "- ".data l)).map
    (fun l => Util.normalizeForCompareChars (l.drop 2))

/-- The `insertAt` index of `appendToSection`: the next `\n## ` heading after
the section header, or the end of the document. -/
def insertAtIndex (base sectionName : String) (headerIndex : Nat) : Nat :=
  (Util.indexOfFrom "\n## ".data base.data
      (headerIndex + ("## " ++ sectionName).data.length)).getD base.data.length

/-- The body of `appendToSection` on the non-empty base document: insert the
bullet at the end of the named section, before the next `\n## ` heading or at
the end of the document; append a fresh section when the heading is
absent. -/
def appendToSectionBase (base sectionName bullet : String) : String :=
  match Util.indexOfFrom ("## " ++ sectionName).data base.data 0 with
  | none =>
      ⟨Util.trimRightChars base.data ++ '\n' :: '\n' :: ("## " ++ sectionName).data ++
        '\n' :: bullet.data ++ ['\n']⟩
  | some headerIndex =>
      ⟨Util.trimRightChars (base.data.take (insertAtIndex base sectionName headerIndex)) ++
        '\n' :: bullet.data ++
        '\n' :: base.data.drop (insertAtIndex base sectionName headerIndex)⟩

/-- `appendToSection(markdown, sectionName, bullet)`, translated from the
source (a blank document falls back to the semantic template). -/
def appendToSection (markdown : String) (sectionName : String) (bullet : String) : String :=
  appendToSectionBase
    (if Util.trimChars markdown.data = [] then DEFAULT_SEMANTIC_DOC else markdown)
    sectionName bullet

/-- `appendUniqueBullet(filePath, section, rawContent, kind)` on the contents
of the target file (`none` models a missing file, read as empty): the new
contents (unchanged when skipped) and the `wrote` result. `fallback` is the
kind-selected default template. -/
def appendUniqueBullet (file : Option String) (sectionName : String) (rawContent : String)
    (fallback : String) : Option String × Bool :=
  let cleaned := Util.normalizeSpaceChars rawContent.data
  if cleaned = [] then (file, false)
  else
    let bullet : String := ⟨'-' :: ' ' :: cleaned⟩
    let current : String := file.getD ""
    let existing := collectBullets current
    if Util.normalizeForCompareChars cleaned ∈ existing then (file, false)
    else
      let target := if current = "" then fallback else current
      (some (appendToSection target sectionName bullet), true)

/-- `clip(text, max)` from the source. -/
def clip (text : String) (maxLen : Nat) : String :=
  if text.data = [] then ""
  else if text.data.length ≤ maxLen then text
  else ⟨text.data.take (maxLen - 3) ++ "...".data⟩

/-- `writeEpisode(summary)` on the contents of the day file: prepend the day
header when the file does not exist yet, then append the stamped entry
(`fs.appendFileSync`). `date` and `time` stand for `todayDateString()` and the
formatted local time. -/
def writeEpisode (file : Option String) (date time summary : String) : String :=
  let header : String :=
    match file with
    | some _ => ""
    | none => "# Episodes - " ++ date ++ "\n\n"
  file.getD "" ++ header ++ "**" ++ time ++ "** " ++ summary ++ "\n\n"

/-- The three stores `rememberThis` can touch, each as the contents of its
file (`none` models a missing file). -/
structure MemFiles where
  semantic : Option String
  goalsFile : Option String
  episodic : Option String
deriving Repr, DecidableEq

def memFiles0 : MemFiles :=
  { semantic := some DEFAULT_SEMANTIC_DOC, goalsFile := none, episodic := none }

/-- `rememberThis(text)`, translated from the source. The goal upsert
(`upsertGoalsFromUserMessage`) reads and writes only the goals file and is
abstracted as a function on its contents; everything else is concrete. The
result is the new store contents and the returned status string. -/
def rememberThis (upsertGoals : Option String → Option String) (date time : String)
    (st : MemFiles) (text : String) : MemFiles × String :=
  let clean : String := ⟨Util.normalizeSpaceChars text.data⟩
  if clean = "" then (st, "Nothing to remember.")
  else
    let app := appendUniqueBullet st.semantic "Known Facts" clean DEFAULT_SEMANTIC_DOC
    let st1 := { st with semantic := app.1 }
    let st2 := { st1 with goalsFile := upsertGoals st1.goalsFile }
    let st3 := { st2 with episodic := some (writeEpisode st2.episodic date time
      ("User explicitly stored: \"" ++ clip clean 160 ++ "\"")) }
    (st3, if app.2 then "Remembered: " ++ clean else "Already remembered: " ++ clean)

end Mem

/-! Lemmas and claim theorems. -/

namespace Resilience

theorem MonoLE.rfl (m : OperationMetrics) : MonoLE m m :=
  ⟨Nat.le_refl _, Nat.le_refl _, Nat.le_refl _, Nat.le_refl _, Nat.le_refl _⟩

theorem MonoLE.trans {a b c : OperationMetrics} (h1 : MonoLE a b) (h2 : MonoLE b c) :
    MonoLE a c :=
  ⟨Nat.le_trans h1.1 h2.1, Nat.le_trans h1.2.1 h2.2.1, Nat.le_trans h1.2.2.1 h2.2.2.1,
    Nat.le_trans h1.2.2.2.1 h2.2.2.2.1, Nat.le_trans h1.2.2.2.2 h2.2.2.2.2⟩

/-- The loop only grows the five counters; it zeroes the consecutive-failure
field on success and leaves it alone on failure; it never touches the
failure or circuit-open counters. -/
theorem attemptLoop_metrics (p : RetryPolicy) (att : Nat → Attempt) (rand : Nat → Rat) :
    ∀ (fuel attempt : Nat) (m : OperationMetrics) (sleeps : List Int)
      (le : Option String) (t : Nat),
      (match attemptLoop p att rand fuel attempt m sleeps le t with
       | .succeeded m' _ _ _ =>
           MonoLE m m' ∧ m'.consecutiveFailures = 0 ∧ m'.failures = m.failures ∧
             m'.circuitOpenEvents = m.circuitOpenEvents
       | .failed m' _ _ _ _ =>
           MonoLE m m' ∧ m'.consecutiveFailures = m.consecutiveFailures ∧
             m'.failures = m.failures ∧ m'.circuitOpenEvents = m.circuitOpenEvents) := by
  intro fuel
  induction fuel with
  | zero =>
      intro attempt m sleeps le t
      simp [attemptLoop, MonoLE.rfl]
  | succ fuel ih =>
      intro attempt m sleeps le t
      simp only [attemptLoop]
      by_cases hok : (att (attempt + 1)).ok
      · simp only [hok, if_true]
        refine ⟨⟨?_, ?_, ?_, ?_, ?_⟩, ?_, ?_, ?_⟩ <;> simp
      · simp only [hok, if_false, Bool.false_eq_true]
        by_cases hlt : attempt + 1 < p.maxAttempts
        · simp only [hlt, if_true]
          have h := ih (attempt + 1)
            { m with lastError := some (att (attempt + 1)).msg,
                     retries := m.retries + 1 }
            (sleeps ++ [withJitter (min p.maxDelayMs (p.baseDelayMs * 2 ^ attempt))
              (p.jitterRatio.getD (1 / 5)) (rand (attempt + 1))])
            (some (att (attempt + 1)).msg) (att (attempt + 1)).time
          revert h
          cases hres : attemptLoop p att rand fuel (attempt + 1)
              { m with lastError := some (att (attempt + 1)).msg,
                       retries := m.retries + 1 }
              (sleeps ++ [withJitter (min p.maxDelayMs (p.baseDelayMs * 2 ^ attempt))
                (p.jitterRatio.getD (1 / 5)) (rand (attempt + 1))])
              (some (att (attempt + 1)).msg) (att (attempt + 1)).time with
          | succeeded m' c sl tt =>
              intro h
              refine ⟨MonoLE.trans ?_ h.1, h.2.1, h.2.2.1, h.2.2.2⟩
              refine ⟨?_, ?_, ?_, ?_, ?_⟩ <;> simp
          | failed m' c sl le' tt =>
              intro h
              refine ⟨MonoLE.trans ?_ h.1, h.2.1, h.2.2.1, h.2.2.2⟩
              refine ⟨?_, ?_, ?_, ?_, ?_⟩ <;> simp
        · simp only [hlt, if_false]
          refine ⟨⟨?_, ?_, ?_, ?_, ?_⟩, ?_, ?_, ?_⟩ <;> simp

/-- One `execute` call never shrinks the five counters. -/
theorem execute_mono (pol : ResiliencePolicy) (op : String) (now : Nat)
    (attempts : Nat → Attempt) (rand : Nat → Rat) (s : ExecState) :
    MonoLE s.metrics (execute pol op now attempts rand s).state.metrics := by
  by_cases hopen : now < s.circuit.openUntil
  · simp [execute, hopen, MonoLE.rfl]
  · simp only [execute, hopen, if_false]
    have hm0 : MonoLE s.metrics
        { s.metrics with total := s.metrics.total + 1, lastStartedAt := some now } := by
      refine ⟨?_, ?_, ?_, ?_, ?_⟩ <;> simp
    have h := attemptLoop_metrics pol.retry attempts rand pol.retry.maxAttempts 0
      { s.metrics with total := s.metrics.total + 1, lastStartedAt := some now } [] none now
    revert h
    cases hres : attemptLoop pol.retry attempts rand pol.retry.maxAttempts 0
        { s.metrics with total := s.metrics.total + 1, lastStartedAt := some now }
        [] none now with
    | succeeded m' c sl tt =>
        intro h
        exact MonoLE.trans hm0 h.1
    | failed m' c sl le' tt =>
        intro h
        by_cases hth : pol.circuitBreaker.failureThreshold ≤ s.circuit.consecutiveFailures + 1
        · simp only [hth, if_true]
          refine MonoLE.trans hm0 (MonoLE.trans h.1 ?_)
          refine ⟨?_, ?_, ?_, ?_, ?_⟩ <;> simp
        · simp only [hth, if_false]
          refine MonoLE.trans hm0 (MonoLE.trans h.1 ?_)
          refine ⟨?_, ?_, ?_, ?_, ?_⟩ <;> simp

/-- The circuit consecutive-failure count after one call: zeroed, incremented
below the threshold, or untouched. -/
theorem execute_circuit_cf (pol : ResiliencePolicy) (op : String) (now : Nat)
    (attempts : Nat → Attempt) (rand : Nat → Rat) (s : ExecState) :
    (execute pol op now attempts rand s).state.circuit.consecutiveFailures = 0 ∨
    ((execute pol op now attempts rand s).state.circuit.consecutiveFailures =
        s.circuit.consecutiveFailures + 1 ∧
      s.circuit.consecutiveFailures + 1 < pol.circuitBreaker.failureThreshold) ∨
    (execute pol op now attempts rand s).state.circuit.consecutiveFailures =
      s.circuit.consecutiveFailures := by
  by_cases hopen : now < s.circuit.openUntil
  · right; right; simp [execute, hopen]
  · simp only [execute, hopen, if_false]
    cases hres : attemptLoop pol.retry attempts rand pol.retry.maxAttempts 0
        { s.metrics with total := s.metrics.total + 1, lastStartedAt := some now }
        [] none now with
    | succeeded m' c sl tt => left; rfl
    | failed m' c sl le' tt =>
        by_cases hth : pol.circuitBreaker.failureThreshold ≤ s.circuit.consecutiveFailures + 1
        · left; simp [hth]
        · right; left
          constructor
          · simp [hth]
          · exact Nat.lt_of_not_le hth

/-- C5 invariant: a reachable circuit state keeps its consecutive-failure
count strictly below a positive threshold. -/
theorem reachable_cf_lt (pol : ResiliencePolicy)
    (hth : 1 ≤ pol.circuitBreaker.failureThreshold) :
    ∀ s : ExecState, Reachable pol s →
      s.circuit.consecutiveFailures < pol.circuitBreaker.failureThreshold := by
  intro s h
  induction h with
  | init => exact hth
  | step s' op now attempts rand _ ih =>
      rcases execute_circuit_cf pol op now attempts rand s' with h0 | ⟨heq, hlt⟩ | hsame
      · rw [h0]; exact hth
      · rw [heq]; exact hlt
      · rw [hsame]; exact ih

/-- The metrics consecutive-failure count is cleared by a success, incremented
by a final failure, untouched by a circuit-open fast fail (which leaves the
whole metrics record untouched). -/
theorem execute_metrics_cf (pol : ResiliencePolicy) (op : String) (now : Nat)
    (attempts : Nat → Attempt) (rand : Nat → Rat) (s : ExecState) :
    ((execute pol op now attempts rand s).outcome = .ok →
      (execute pol op now attempts rand s).state.metrics.consecutiveFailures = 0) ∧
    (∀ msg, (execute pol op now attempts rand s).outcome = .err msg →
      (execute pol op now attempts rand s).state.metrics.consecutiveFailures =
        s.metrics.consecutiveFailures + 1) ∧
    (∀ u, (execute pol op now attempts rand s).outcome = .circuitOpen u →
      (execute pol op now attempts rand s).state.metrics = s.metrics) := by
  by_cases hopen : now < s.circuit.openUntil
  · refine ⟨?_, ?_, ?_⟩ <;> simp [execute, hopen]
  · simp only [execute, hopen, if_false]
    have h := attemptLoop_metrics pol.retry attempts rand pol.retry.maxAttempts 0
      { s.metrics with total := s.metrics.total + 1, lastStartedAt := some now } [] none now
    revert h
    cases hres : attemptLoop pol.retry attempts rand pol.retry.maxAttempts 0
        { s.metrics with total := s.metrics.total + 1, lastStartedAt := some now }
        [] none now with
    | succeeded m' c sl tt =>
        intro h
        refine ⟨fun _ => h.2.1, ?_, ?_⟩ <;> intro x hx <;> simp at hx
    | failed m' c sl le' tt =>
        intro h
        by_cases hth : pol.circuitBreaker.failureThreshold ≤ s.circuit.consecutiveFailures + 1
        · simp only [hth, if_true]
          refine ⟨?_, ?_, ?_⟩
          · intro hx; simp at hx
          · intro msg _
            simp [h.2.1]
          · intro u hx; simp at hx
        · simp only [hth, if_false]
          refine ⟨?_, ?_, ?_⟩
          · intro hx; simp at hx
          · intro msg _
            simp [h.2.1]
          · intro u hx; simp at hx

/-- C9: with the circuit open, `execute` throws immediately, does not invoke
`fn`, and leaves the whole per-operation state untouched. -/
theorem circuit_open_fast_fail (pol : ResiliencePolicy) (op : String) (now : Nat)
    (attempts : Nat → Attempt) (rand : Nat → Rat) (s : ExecState)
    (hopen : now < s.circuit.openUntil) :
    execute pol op now attempts rand s =
      { state := s, outcome := .circuitOpen s.circuit.openUntil, calls := 0, sleeps := [] } := by
  simp [execute, hopen]

/-- Witness for C9 at a concrete open circuit. -/
theorem circuit_open_fast_fail_witness :
    (0 < ({ metrics := initMetrics, circuit := { openUntil := 10, consecutiveFailures := 0 } }
        : ExecState).circuit.openUntil) ∧
    execute polCx5 "op" 0 failBoom zeroRand
        { metrics := initMetrics, circuit := { openUntil := 10, consecutiveFailures := 0 } } =
      { state := { metrics := initMetrics
                   circuit := { openUntil := 10, consecutiveFailures := 0 } }
        outcome := .circuitOpen 10, calls := 0, sleeps := [] } :=
  ⟨by decide,
    circuit_open_fast_fail polCx5 "op" 0 failBoom zeroRand
      { metrics := initMetrics, circuit := { openUntil := 10, consecutiveFailures := 0 } }
      (by decide)⟩

/-- C5 (amended): a reachable state satisfies the breaker disjunction through
its first disjunct; one step never shrinks the five counters; and the
consecutive-failure count of the metrics is cleared exactly by a success,
incremented by a final failure beyond the retries, and untouched by a
circuit-open fast fail. -/
theorem breaker_invariant_and_monotonicity (pol : ResiliencePolicy)
    (hth : 1 ≤ pol.circuitBreaker.failureThreshold) (s : ExecState)
    (hreach : Reachable pol s) (op : String) (now : Nat) (attempts : Nat → Attempt)
    (rand : Nat → Rat) (msg : String) (u : Nat) :
    (s.circuit.consecutiveFailures < pol.circuitBreaker.failureThreshold ∨
      now < s.circuit.openUntil) ∧
    MonoLE s.metrics (execute pol op now attempts rand s).state.metrics ∧
    ((execute pol op now attempts rand s).outcome = .ok →
      (execute pol op now attempts rand s).state.metrics.consecutiveFailures = 0) ∧
    ((execute pol op now attempts rand s).outcome = .err msg →
      (execute pol op now attempts rand s).state.metrics.consecutiveFailures =
        s.metrics.consecutiveFailures + 1) ∧
    ((execute pol op now attempts rand s).outcome = .circuitOpen u →
      (execute pol op now attempts rand s).state.metrics = s.metrics) :=
  ⟨Or.inl (reachable_cf_lt pol hth s hreach),
    execute_mono pol op now attempts rand s,
    (execute_metrics_cf pol op now attempts rand s).1,
    (execute_metrics_cf pol op now attempts rand s).2.1 msg,
    (execute_metrics_cf pol op now attempts rand s).2.2 u⟩

/-- Witness for the amended C5 at the fresh state. -/
theorem breaker_invariant_and_monotonicity_witness :
    (1 ≤ polCx5.circuitBreaker.failureThreshold) ∧ Reachable polCx5 initExecState ∧
    ((initExecState.circuit.consecutiveFailures < polCx5.circuitBreaker.failureThreshold ∨
        0 < initExecState.circuit.openUntil) ∧
      MonoLE initExecState.metrics
        (execute polCx5 "op" 0 failBoom zeroRand initExecState).state.metrics ∧
      ((execute polCx5 "op" 0 failBoom zeroRand initExecState).outcome = .ok →
        (execute polCx5 "op" 0 failBoom zeroRand
            initExecState).state.metrics.consecutiveFailures = 0) ∧
      ((execute polCx5 "op" 0 failBoom zeroRand initExecState).outcome = .err "boom" →
        (execute polCx5 "op" 0 failBoom zeroRand
            initExecState).state.metrics.consecutiveFailures =
          initExecState.metrics.consecutiveFailures + 1) ∧
      ((execute polCx5 "op" 0 failBoom zeroRand initExecState).outcome = .circuitOpen 0 →
        (execute polCx5 "op" 0 failBoom zeroRand initExecState).state.metrics =
          initExecState.metrics)) :=
  ⟨by decide, Reachable.init,
    breaker_invariant_and_monotonicity polCx5 (by decide) initExecState Reachable.init
      "op" 0 failBoom zeroRand "boom" 0⟩

/-- C5 counterexample: after one final failure (one consecutive failure on
record, threshold five, so the breaker never opened) a success clears the
consecutive-failure count — a reset performed by a transition that is not the
cooldown transition, with `circuitOpenEvents` still zero and `openUntil`
never set. -/
theorem consecutive_failures_reset_on_success_cx :
    ((execute polCx5 "op" 0 failBoom zeroRand initExecState).state.metrics.consecutiveFailures
        = 1) ∧
    ((execute polCx5 "op" 10 okAt10 zeroRand
        (execute polCx5 "op" 0 failBoom zeroRand
          initExecState).state).state.metrics.consecutiveFailures = 0) ∧
    ((execute polCx5 "op" 0 failBoom zeroRand initExecState).state.metrics.circuitOpenEvents
        = 0) ∧
    ((execute polCx5 "op" 10 okAt10 zeroRand
        (execute polCx5 "op" 0 failBoom zeroRand
          initExecState).state).state.metrics.circuitOpenEvents = 0) ∧
    ((execute polCx5 "op" 0 failBoom zeroRand initExecState).state.circuit.openUntil = 0) ∧
    ((execute polCx5 "op" 10 okAt10 zeroRand
        (execute polCx5 "op" 0 failBoom zeroRand
          initExecState).state).state.circuit.openUntil = 0) := by
  decide

/-- The loop under the boundary policy: three failing invocations, sleeps of
exactly 100 and 200 milliseconds, the last message on record. -/
theorem attemptLoop_boundary (attempts : Nat → Attempt) (rand : Nat → Rat)
    (m : OperationMetrics) (now : Nat) (hfail : ∀ n, (attempts n).ok = false) :
    attemptLoop { maxAttempts := 3, baseDelayMs := 100, maxDelayMs := 1000
                  jitterRatio := some 0 } attempts rand 3 0 m [] none now =
      .failed { m with lastError := some (attempts 3).msg, retries := m.retries + 2 }
        3 [100, 200] (some (attempts 3).msg) (attempts 3).time := by
  simp [attemptLoop, hfail, withJitter]

/-- C6: under the boundary policy with zero jitter, an always-failing `fn` is
invoked exactly three times, the sleeps are exactly 100 and 200 milliseconds,
and the error of the third invocation is re-raised with its message and
recorded in the metrics. -/
theorem retry_boundary_behavior (pol : ResiliencePolicy)
    (hpol : pol.retry = { maxAttempts := 3, baseDelayMs := 100, maxDelayMs := 1000
                          jitterRatio := some 0 })
    (op : String) (now : Nat) (attempts : Nat → Attempt) (rand : Nat → Rat)
    (s : ExecState) (hclosed : s.circuit.openUntil ≤ now)
    (hfail : ∀ n, (attempts n).ok = false) :
    (execute pol op now attempts rand s).calls = 3 ∧
    (execute pol op now attempts rand s).sleeps = [100, 200] ∧
    (execute pol op now attempts rand s).outcome = .err (attempts 3).msg ∧
    (execute pol op now attempts rand s).state.metrics.lastError =
      some (attempts 3).msg := by
  have hopen : ¬ (now < s.circuit.openUntil) := Nat.not_lt.mpr hclosed
  simp only [execute, hopen, if_false, hpol,
    attemptLoop_boundary attempts rand _ now hfail]
  by_cases hth : pol.circuitBreaker.failureThreshold ≤ s.circuit.consecutiveFailures + 1
  · simp [hth]
  · simp [hth]

/-- Witness for C6 at a concrete always-failing function. -/
theorem retry_boundary_behavior_witness :
    (polC6.retry = { maxAttempts := 3, baseDelayMs := 100, maxDelayMs := 1000
                     jitterRatio := some 0 }) ∧
    (initExecState.circuit.openUntil ≤ 0) ∧
    ((execute polC6 "op" 0 failBoom zeroRand initExecState).calls = 3 ∧
      (execute polC6 "op" 0 failBoom zeroRand initExecState).sleeps = [100, 200] ∧
      (execute polC6 "op" 0 failBoom zeroRand initExecState).outcome =
        .err (failBoom 3).msg ∧
      (execute polC6 "op" 0 failBoom zeroRand initExecState).state.metrics.lastError =
        some (failBoom 3).msg) :=
  ⟨rfl, Nat.le_refl 0,
    retry_boundary_behavior polC6 rfl "op" 0 failBoom zeroRand initExecState
      (Nat.le_refl 0) (fun _ => rfl)⟩

end Resilience

namespace Agent

theorem countStarts_append (a b : List AgentEvent) :
    countStarts (a ++ b) = countStarts a + countStarts b := by
  induction a with
  | nil => simp [countStarts]
  | cons e rest ih => cases e <;> (simp [countStarts, ih]; try omega)

theorem countEnds_append (a b : List AgentEvent) :
    countEnds (a ++ b) = countEnds a + countEnds b := by
  induction a with
  | nil => simp [countEnds]
  | cons e rest ih => cases e <;> (simp [countEnds, ih]; try omega)

/-- One dispatched call emits exactly one start and one end. -/
theorem execOneToolCall_counts (tools : Tools) (parse : ArgParse) (tc : ToolCall) :
    countStarts (execOneToolCall tools parse tc).2 = 1 ∧
    countEnds (execOneToolCall tools parse tc).2 = 1 := by
  cases htool : tools tc.name with
  | none => simp [execOneToolCall, htool, countStarts, countEnds]
  | some fn =>
      cases hr : fn ((parse tc.arguments).getD []) with
      | ok out => simp [execOneToolCall, htool, hr, countStarts, countEnds]
      | error msg => simp [execOneToolCall, htool, hr, countStarts, countEnds]

theorem executeToolCalls_counts (tools : Tools) (parse : ArgParse) (calls : List ToolCall) :
    countStarts (executeToolCalls tools parse calls).2 = calls.length ∧
    countEnds (executeToolCalls tools parse calls).2 = calls.length := by
  induction calls with
  | nil => simp [executeToolCalls, countStarts, countEnds]
  | cons tc rest ih =>
      have h1 := execOneToolCall_counts tools parse tc
      simp [executeToolCalls, countStarts_append, countEnds_append, ih, h1]
      omega

/-- The final branch (wallet guard included) emits no bus event. -/
theorem finalizeReply_counts (tools : Tools) (intent : Option String)
    (walletCalled : Bool) (content : String) :
    countStarts (finalizeReply tools intent walletCalled content).2 = 0 ∧
    countEnds (finalizeReply tools intent walletCalled content).2 = 0 := by
  cases intent with
  | none => simp [finalizeReply, countStarts, countEnds]
  | some name =>
      cases walletCalled with
      | true => simp [finalizeReply, countStarts, countEnds]
      | false =>
          cases htool : tools name with
          | none => simp [finalizeReply, htool, countStarts, countEnds]
          | some fn =>
              cases hr : fn [] with
              | ok g => simp [finalizeReply, htool, hr, countStarts, countEnds]
              | error m => simp [finalizeReply, htool, hr, countStarts, countEnds]

theorem runAgentLoop_counts (tools : Tools) (parse : ArgParse) (intent : Option String) :
    ∀ (rounds : List Round) (walletCalled : Bool),
      countStarts (runAgentLoop tools parse intent walletCalled rounds).2 =
        executedCalls rounds ∧
      countEnds (runAgentLoop tools parse intent walletCalled rounds).2 =
        executedCalls rounds := by
  intro rounds
  induction rounds with
  | nil =>
      intro walletCalled
      simp [runAgentLoop, executedCalls, finalizeReply_counts]
  | cons r rest ih =>
      intro walletCalled
      by_cases hempty : r.toolCalls.isEmpty
      · simp [runAgentLoop, hempty, executedCalls, finalizeReply_counts]
      · have h1 := executeToolCalls_counts tools parse r.toolCalls
        have h2 := ih (walletCalled || r.toolCalls.any fun tc => Util.startsWithStr tc.name "wallet_")
        simp [runAgentLoop, hempty, executedCalls, countStarts_append, countEnds_append,
          h1.1, h1.2, h2.1, h2.2]

/-- C1 (amended): every tool invocation the loop dispatches through
`executeToolCalls` emits exactly one `tool:start` and one `tool:end` (the
start and end counts of a turn both equal the number of dispatched calls),
while the final branch — the wallet guard included — emits none: a guard
invocation calls the handler directly and bypasses the event bus. -/
theorem tool_events_per_invocation :
    (∀ (tools : Tools) (parse : ArgParse) (userText : String) (rounds : List Round),
      countStarts (runAgent tools parse userText rounds).2 = executedCalls rounds ∧
      countEnds (runAgent tools parse userText rounds).2 = executedCalls rounds) ∧
    (∀ (tools : Tools) (intent : Option String) (walletCalled : Bool) (content : String),
      countStarts (finalizeReply tools intent walletCalled content).2 = 0 ∧
      countEnds (finalizeReply tools intent walletCalled content).2 = 0) :=
  ⟨fun tools parse userText rounds =>
      runAgentLoop_counts tools parse (detectWalletGuardIntent userText) rounds false,
    finalizeReply_counts⟩

/-- C1 counterexample: a balance question answered without a tool round
triggers the wallet guard, which runs the `wallet_balance` handler once while
the turn emits no `tool:start` event at all, so the guard invocation emits
neither `tool:start` nor `tool:end`. -/
theorem wallet_guard_bypasses_event_bus_cx :
    countRunsOf "wallet_balance"
        (runAgent walletTools (fun _ => none) "what is your balance?"
          [{ content := "around 1 ETH", toolCalls := [] }]).2 = 1 ∧
    countStartsOf "wallet_balance"
        (runAgent walletTools (fun _ => none) "what is your balance?"
          [{ content := "around 1 ETH", toolCalls := [] }]).2 = 0 ∧
    (runAgent walletTools (fun _ => none) "what is your balance?"
        [{ content := "around 1 ETH", toolCalls := [] }]).2 =
      [.handlerRun "wallet_balance" []] := by
  decide

/-- The loop with an untriggered wallet flag and no wallet call in any
executed round reaches the final branch with the flag still false. -/
theorem runAgentLoop_reply (tools : Tools) (parse : ArgParse) (name : String)
    (fn : Handler) (out : String) (htool : tools name = some fn)
    (hok : fn [] = .ok out) :
    ∀ (rounds : List Round), walletCalledDuring rounds = false →
      (runAgentLoop tools parse (some name) false rounds).1 =
        finalContent rounds ++ "\n\n(Verified via " ++ name ++ ")\n" ++ out := by
  intro rounds
  induction rounds with
  | nil =>
      intro _
      simp [runAgentLoop, finalizeReply, finalContent, htool, hok]
  | cons r rest ih =>
      intro hnw
      by_cases hempty : r.toolCalls.isEmpty
      · by_cases hcontent : r.content = ""
        · simp [runAgentLoop, hempty, finalizeReply, finalContent, htool, hok, hcontent]
        · simp [runAgentLoop, hempty, finalizeReply, finalContent, htool, hok, hcontent]
      · cases hany : (r.toolCalls.any fun tc => Util.startsWithStr tc.name "wallet_") with
        | true =>
            exfalso
            have h0 := hnw
            simp [walletCalledDuring, hempty, hany] at h0
        | false =>
            have hrest : walletCalledDuring rest = false := by
              have h0 := hnw
              simpa [walletCalledDuring, hempty, hany] using h0
            have ihr := ih hrest
            simp [runAgentLoop, hempty, finalContent, hany, ihr]

/-- C2 (amended): when the user text classifies as a wallet question and no
wallet tool ran during the turn, the guard invokes the detected wallet tool on
the empty argument object and appends its output after the model draft,
separated by a `(Verified via <tool>)` line — the draft text stays first, the
tool output last. -/
theorem wallet_guard_appends_output (tools : Tools) (parse : ArgParse)
    (userText : String) (rounds : List Round) (name : String) (fn : Handler)
    (out : String) (hintent : detectWalletGuardIntent userText = some name)
    (hnw : walletCalledDuring rounds = false) (htool : tools name = some fn)
    (hok : fn [] = .ok out) :
    (runAgent tools parse userText rounds).1 =
      finalContent rounds ++ "\n\n(Verified via " ++ name ++ ")\n" ++ out := by
  have h := runAgentLoop_reply tools parse name fn out htool hok rounds hnw
  simpa [runAgent, hintent] using h

/-- Witness for the amended C2 at a concrete balance question. -/
theorem wallet_guard_appends_output_witness :
    detectWalletGuardIntent "what is your balance?" = some "wallet_balance" ∧
    walletCalledDuring [{ content := "around 1 ETH", toolCalls := [] }] = false ∧
    (runAgent walletTools (fun _ => none) "what is your balance?"
        [{ content := "around 1 ETH", toolCalls := [] }]).1 =
      finalContent [{ content := "around 1 ETH", toolCalls := [] }] ++
        "\n\n(Verified via " ++ "wallet_balance" ++ ")\n" ++ "Balance: 0.5 ETH" :=
  ⟨by decide, by decide,
    wallet_guard_appends_output walletTools (fun _ => none) "what is your balance?"
      [{ content := "around 1 ETH", toolCalls := [] }] "wallet_balance"
      (fun _ => .ok "Balance: 0.5 ETH") "Balance: 0.5 ETH" (by decide) (by decide) rfl rfl⟩

/-- C2 counterexample: the guard output lands after the draft — the reply
starts with the model draft, not with the wallet tool output, refuting the
prepend claim at a concrete input. -/
theorem wallet_guard_appends_cx :
    (runAgent walletTools (fun _ => none) "what is your balance?"
        [{ content := "around 1 ETH", toolCalls := [] }]).1 =
      "around 1 ETH\n\n(Verified via wallet_balance)\nBalance: 0.5 ETH" ∧
    Util.startsWithStr
        (runAgent walletTools (fun _ => none) "what is your balance?"
          [{ content := "around 1 ETH", toolCalls := [] }]).1 "around 1 ETH" = true ∧
    Util.startsWithStr
        (runAgent walletTools (fun _ => none) "what is your balance?"
          [{ content := "around 1 ETH", toolCalls := [] }]).1 "Balance: 0.5 ETH" = false := by
  decide

/-- C3 (amended): an argument string that fails to parse is swallowed — the
handler is invoked anyway, on the empty argument object; its result (or
`Error executing <name>: <msg>` when it throws) is returned to the model, and
nothing escapes. -/
theorem tool_args_parse_failure_swallowed (tools : Tools) (parse : ArgParse)
    (tc : ToolCall) (fn : Handler) (hp : parse tc.arguments = none)
    (htool : tools tc.name = some fn) :
    (∀ out, fn [] = .ok out →
      (execOneToolCall tools parse tc).1.content = out ∧
      (execOneToolCall tools parse tc).2 =
        [.toolStart tc.name [], .handlerRun tc.name [],
         .toolEnd tc.name (!Util.startsWithStr out "Error") (Util.sliceTo out 240)]) ∧
    (∀ msg, fn [] = .error msg →
      (execOneToolCall tools parse tc).1.content =
        "Error executing " ++ tc.name ++ ": " ++ msg ∧
      (execOneToolCall tools parse tc).2 =
        [.toolStart tc.name [], .handlerRun tc.name [],
         .toolEnd tc.name
           (!Util.startsWithStr ("Error executing " ++ tc.name ++ ": " ++ msg) "Error")
           (Util.sliceTo ("Error executing " ++ tc.name ++ ": " ++ msg) 240)]) := by
  constructor
  · intro out hok
    simp [execOneToolCall, hp, htool, hok]
  · intro msg herr
    simp [execOneToolCall, hp, htool, herr]

/-- Witness for the amended C3 at a concrete unparseable argument string. -/
theorem tool_args_parse_failure_swallowed_witness :
    ((fun _ => none : ArgParse) "not json" = none) ∧
    (echoTools "echo" = some (fun _ => .ok "42")) ∧
    ((∀ out, (fun _ => Except.ok "42" : Handler) [] = .ok out →
      (execOneToolCall echoTools (fun _ => none)
          { id := "call1", name := "echo", arguments := "not json" }).1.content = out ∧
      (execOneToolCall echoTools (fun _ => none)
          { id := "call1", name := "echo", arguments := "not json" }).2 =
        [.toolStart "echo" [], .handlerRun "echo" [],
         .toolEnd "echo" (!Util.startsWithStr out "Error") (Util.sliceTo out 240)]) ∧
    (∀ msg, (fun _ => Except.ok "42" : Handler) [] = .error msg →
      (execOneToolCall echoTools (fun _ => none)
          { id := "call1", name := "echo", arguments := "not json" }).1.content =
        "Error executing " ++ "echo" ++ ": " ++ msg ∧
      (execOneToolCall echoTools (fun _ => none)
          { id := "call1", name := "echo", arguments := "not json" }).2 =
        [.toolStart "echo" [], .handlerRun "echo" [],
         .toolEnd "echo"
           (!Util.startsWithStr ("Error executing " ++ "echo" ++ ": " ++ msg) "Error")
           (Util.sliceTo ("Error executing " ++ "echo" ++ ": " ++ msg) 240)])) :=
  ⟨rfl, rfl,
    tool_args_parse_failure_swallowed echoTools (fun _ => none)
      { id := "call1", name := "echo", arguments := "not json" }
      (fun _ => .ok "42") rfl rfl⟩

/-- C3 counterexample: with an unparseable argument string the tool execution
returns the handler result `42` — not an `Error executing` string — and the
trace shows the handler did run (on the empty object). -/
theorem tool_args_parse_failure_cx :
    (execOneToolCall echoTools (fun _ => none)
        { id := "call1", name := "echo", arguments := "not json" }).1.content = "42" ∧
    Util.startsWithStr
        (execOneToolCall echoTools (fun _ => none)
          { id := "call1", name := "echo", arguments := "not json" }).1.content "Error"
      = false ∧
    (execOneToolCall echoTools (fun _ => none)
        { id := "call1", name := "echo", arguments := "not json" }).2 =
      [.toolStart "echo" [], .handlerRun "echo" [], .toolEnd "echo" true "42"] := by
  decide

end Agent

namespace Util

theorem flatMapL_append (f : α → List β) (a b : List α) :
    flatMapL f (a ++ b) = flatMapL f a ++ flatMapL f b := by
  induction a with
  | nil => simp [flatMapL]
  | cons x rest ih => simp [flatMapL, ih]

end Util

namespace Sched

theorem renamesOf_append (a b : List FsOp) :
    renamesOf (a ++ b) = renamesOf a ++ renamesOf b := by
  induction a with
  | nil => simp [renamesOf]
  | cons op rest ih => cases op <;> simp [renamesOf, ih]

theorem IsPersistSeq.nil (iso : String) : IsPersistSeq iso [] :=
  ⟨[], rfl⟩

theorem IsPersistSeq.single (iso : String) (rt : SchedulerRuntime) :
    IsPersistSeq iso (persistState rt iso) :=
  ⟨[rt], by simp [Util.flatMapL]⟩

theorem IsPersistSeq.append_persist (iso : String) (ops : List FsOp)
    (h : IsPersistSeq iso ops) (rt : SchedulerRuntime) :
    IsPersistSeq iso (ops ++ persistState rt iso) := by
  obtain ⟨rts, hrts⟩ := h
  exact ⟨rts ++ [rt], by simp [hrts, Util.flatMapL_append, Util.flatMapL]⟩

theorem IsPersistSeq.renames (iso : String) (ops : List FsOp) (h : IsPersistSeq iso ops) :
    renamesOf ops = [] := by
  obtain ⟨rts, hrts⟩ := h
  subst hrts
  induction rts with
  | nil => simp [Util.flatMapL, renamesOf]
  | cons rt rest ih =>
      show renamesOf (persistState rt iso ++
        Util.flatMapL (fun rt => persistState rt iso) rest) = []
      rw [renamesOf_append, ih]
      simp [persistState, saveSchedulerState, renamesOf]

theorem tickReminder_persistSeq (now : Nat) (iso : String)
    (acc : SchedulerRuntime × List FsOp × List String) (r : RuntimeReminder)
    (h : IsPersistSeq iso acc.2.1) :
    IsPersistSeq iso (tickReminder now iso acc r).2.1 := by
  unfold tickReminder
  by_cases hen : r.enabled
  · simp only [hen]
    cases hnr : mapGet acc.1.nextRunById r.id with
    | none =>
        simpa using IsPersistSeq.append_persist iso acc.2.1 h _
    | some nextRun =>
        by_cases hdue : now < nextRun
        · simpa [hdue] using h
        · by_cases hrun : r.id ∈ acc.1.running
          · simp only [hdue, if_false, hrun]
            simpa [hdue, hrun] using IsPersistSeq.append_persist iso acc.2.1 h _
          · simpa [hdue, hrun] using IsPersistSeq.append_persist iso acc.2.1 h _
  · simpa [hen] using h

theorem tickOneTime_persistSeq (iso : String)
    (acc : SchedulerRuntime × List FsOp × List String) (r : OneTimeReminder)
    (h : IsPersistSeq iso acc.2.1) :
    IsPersistSeq iso (tickOneTime iso acc r).2.1 := by
  unfold tickOneTime
  by_cases hrun : r.id ∈ acc.1.running
  · simpa [hrun] using h
  · simpa [hrun] using IsPersistSeq.append_persist iso acc.2.1 h _

theorem foldl_persistSeq {α : Type} (iso : String)
    (f : (SchedulerRuntime × List FsOp × List String) → α →
      (SchedulerRuntime × List FsOp × List String))
    (hf : ∀ acc x, IsPersistSeq iso acc.2.1 → IsPersistSeq iso (f acc x).2.1) :
    ∀ (l : List α) (acc), IsPersistSeq iso acc.2.1 →
      IsPersistSeq iso (List.foldl f acc l).2.1 := by
  intro l
  induction l with
  | nil => intro acc h; simpa using h
  | cons x rest ih => intro acc h; exact ih (f acc x) (hf acc x h)

theorem tick_persistSeq (cfg : SchedulerConfig) (now : Nat) (iso : String)
    (rt : SchedulerRuntime) : IsPersistSeq iso (tick cfg now iso rt).2.1 := by
  unfold tick
  by_cases hen : cfg.enabled
  · simp only [hen]
    have h1 := foldl_persistSeq iso (tickReminder now iso)
      (fun acc x h => tickReminder_persistSeq now iso acc x h)
      (normalizeReminders cfg rt.heartbeat) (rt, [], []) (IsPersistSeq.nil iso)
    have h2 := foldl_persistSeq iso (tickOneTime iso)
      (fun acc x h => tickOneTime_persistSeq iso acc x h)
      ((List.foldl (tickReminder now iso) (rt, [], [])
          (normalizeReminders cfg rt.heartbeat)).1.oneTimeById.filter
        (fun r => r.enabled && r.runAtMs ≤ now))
      (List.foldl (tickReminder now iso) (rt, [], []) (normalizeReminders cfg rt.heartbeat))
      h1
    simpa using h2
  · simpa [hen] using IsPersistSeq.nil iso

end Sched

namespace Sched

/-- C4 (amended): every scheduler-state mutation persists by emitting a
sequence of `persistState` calls, and `persistState` serializes the complete
state — next-run map, one-time reminders sorted by `runAtMs`, heartbeat,
`updatedAt` — into one direct write of the state file, with no temporary file
and no rename anywhere. -/
theorem scheduler_persist_direct_write :
    (∀ (rt : SchedulerRuntime) (iso : String),
      persistState rt iso =
        [.mkdirRecursive STATE_DIR,
         .writeFile STATE_FILE
           { nextRunById := rt.nextRunById, oneTimeReminders := sortByRunAt rt.oneTimeById
             heartbeat := rt.heartbeat, updatedAt := iso }] ∧
      renamesOf (persistState rt iso) = []) ∧
    (∀ (rt : SchedulerRuntime) (m : Nat) (p : Option String) (iso : String),
      (setHeartbeat rt m p iso).2 = persistState (setHeartbeat rt m p iso).1 iso) ∧
    (∀ (rt : SchedulerRuntime) (iso : String),
      (disableHeartbeat rt iso).2 = persistState (disableHeartbeat rt iso).1 iso) ∧
    (∀ (rt : SchedulerRuntime) (id : String) (iso : String),
      (cancelOneTimeReminder rt id iso).2.2 =
        if (cancelOneTimeReminder rt id iso).2.1 then
          persistState (cancelOneTimeReminder rt id iso).1 iso
        else []) ∧
    (∀ (rt : SchedulerRuntime) (runAt : Nat) (prompt : String) (lane : LaneName)
        (now : Nat) (fid : String) (iso : String) (rt2 : SchedulerRuntime)
        (rid : String) (ops : List FsOp),
      scheduleOneTimeReminderAt rt runAt prompt lane now fid iso = .ok (rt2, rid, ops) →
        ops = persistState rt2 iso) ∧
    (∀ (cfg : SchedulerConfig) (now : Nat) (iso : String) (rt : SchedulerRuntime),
      IsPersistSeq iso (tick cfg now iso rt).2.1) ∧
    (∀ (iso : String) (ops : List FsOp), IsPersistSeq iso ops → renamesOf ops = []) := by
  refine ⟨?_, ?_, ?_, ?_, ?_, tick_persistSeq, IsPersistSeq.renames⟩
  · intro rt iso
    exact ⟨rfl, rfl⟩
  · intro rt m p iso
    rfl
  · intro rt iso
    rfl
  · intro rt id iso
    rfl
  · intro rt runAt prompt lane now fid iso rt2 rid ops h
    unfold scheduleOneTimeReminderAt at h
    by_cases hp : Util.trimStr prompt = ""
    · simp [hp] at h
    · by_cases hrun : runAt ≤ now + 2000
      · simp [hp, hrun] at h
      · simp only [hp, hrun, if_false, ite_false] at h
        rcases h with h
        cases h
        rfl

/-- C4 counterexample: a heartbeat change — a scheduler-state mutation —
persists through one `mkdirSync` and one direct `writeFileSync` of the state
file; its file-system trace holds no rename (and no write to any other path),
so no temporary file is written and renamed over the state file. -/
theorem scheduler_persist_not_atomic_cx :
    (setHeartbeat rtCx 5 none "2024-01-01T00:00:00.000Z").2 =
      [.mkdirRecursive "memory/scheduler",
       .writeFile "memory/scheduler/state.json"
         { nextRunById := [("ping", 60000)], oneTimeReminders := []
           heartbeat := { enabled := true, intervalMinutes := 5, prompt := "hb" }
           updatedAt := "2024-01-01T00:00:00.000Z" }] ∧
    renamesOf (setHeartbeat rtCx 5 none "2024-01-01T00:00:00.000Z").2 = [] := by
  decide

end Sched

namespace Util

theorem dropWhile_idem (p : α → Bool) (l : List α) :
    (l.dropWhile p).dropWhile p = l.dropWhile p := by
  induction l with
  | nil => rfl
  | cons c r ih =>
      by_cases h : p c
      · simp [List.dropWhile, h, ih]
      · simp [List.dropWhile, h]

theorem head?_dropWhile_not (p : α → Bool) (l : List α) (c : α)
    (h : (l.dropWhile p).head? = some c) : p c = false := by
  induction l with
  | nil => simp [List.dropWhile] at h
  | cons d r ih =>
      by_cases hd : p d
      · rw [List.dropWhile_cons_of_pos hd] at h
        exact ih h
      · rw [List.dropWhile_cons_of_neg hd] at h
        simp at h
        subst h
        simpa using hd

theorem mem_dropWhile (p : α → Bool) (l : List α) (c : α) (h : c ∈ l.dropWhile p) :
    c ∈ l := by
  induction l with
  | nil => simp [List.dropWhile] at h
  | cons d r ih =>
      by_cases hd : p d
      · rw [List.dropWhile_cons_of_pos hd] at h
        exact List.mem_cons_of_mem d (ih h)
      · rwa [List.dropWhile_cons_of_neg hd] at h

theorem mem_trimChars (l : List Char) (c : Char) (h : c ∈ trimChars l) : c ∈ l := by
  unfold trimChars at h
  rw [List.mem_reverse] at h
  have h1 := mem_dropWhile isWs _ c h
  rw [List.mem_reverse] at h1
  exact mem_dropWhile isWs l c h1

theorem mem_collapseWs_ws (l : List Char) : ∀ (b : Bool) (c : Char),
    c ∈ collapseWs b l → isWs c = true → c = ' ' := by
  induction l with
  | nil => intro b c h; simp [collapseWs] at h
  | cons d r ih =>
      intro b c h hws
      by_cases hd : isWs d
      · cases b with
        | true =>
            simp only [collapseWs, hd, if_true] at h
            exact ih true c h hws
        | false =>
            simp only [collapseWs, hd, if_true] at h
            rcases List.mem_cons.mp h with h1 | h1
            · exact h1
            · exact ih true c h1 hws
      · simp only [collapseWs, hd, if_false, Bool.false_eq_true] at h
        rcases List.mem_cons.mp h with h1 | h1
        · subst h1; simp [hd] at hws
        · exact ih false c h1 hws

/-- The adjacency relation of a collapsed text: no two neighboring whitespace
characters. -/
def NoWsPair (c d : Char) : Prop := ¬(isWs c = true ∧ isWs d = true)

theorem head?_collapseWs_true (l : List Char) (c : Char)
    (h : (collapseWs true l).head? = some c) : isWs c = false := by
  induction l with
  | nil => simp [collapseWs] at h
  | cons d r ih =>
      by_cases hd : isWs d
      · simp only [collapseWs, hd, if_true] at h
        exact ih h
      · simp only [collapseWs, hd, if_false, Bool.false_eq_true] at h
        simp at h
        rw [← h]
        simpa using hd

theorem chain'_collapseWs (l : List Char) : ∀ b : Bool,
    List.Chain' NoWsPair (collapseWs b l) := by
  induction l with
  | nil => intro b; simp [collapseWs]
  | cons d r ih =>
      intro b
      by_cases hd : isWs d
      · cases b with
        | true => simpa [collapseWs, hd] using ih true
        | false =>
            simp only [collapseWs, hd, if_true]
            refine List.chain'_cons'.mpr ⟨?_, ih true⟩
            intro y hy
            have := head?_collapseWs_true r y hy
            intro hcon
            rw [this] at hcon
            exact Bool.false_ne_true hcon.2
      · simp only [collapseWs, hd, if_false, Bool.false_eq_true]
        refine List.chain'_cons'.mpr ⟨?_, ih false⟩
        intro y hy
        intro hcon
        rw [Bool.eq_false_iff.mpr hd] at hcon
        exact Bool.false_ne_true hcon.1

theorem collapseWs_fixpoint (l : List Char) (hchain : List.Chain' NoWsPair l)
    (hsp : ∀ c ∈ l, isWs c = true → c = ' ') : collapseWs false l = l := by
  induction l with
  | nil => rfl
  | cons d r ih =>
      by_cases hd : isWs d
      · simp only [collapseWs, hd, if_true]
        have hd' : d = ' ' := hsp d (List.mem_cons_self d r) (by simpa using hd)
        have hcoll : collapseWs true r = collapseWs false r := by
          cases r with
          | nil => rfl
          | cons e r' =>
              have hpair : NoWsPair d e := (List.chain'_cons.mp hchain).1
              have he : isWs e = false := by
                by_contra hcon
                exact hpair ⟨by simpa using hd, by simpa using hcon⟩
              simp [collapseWs, he]
        rw [hd', hcoll, ih (List.Chain'.tail hchain) (fun c hc hw => hsp c (List.mem_cons_of_mem d hc) hw)]
        simp
      · simp only [collapseWs, hd, if_false, Bool.false_eq_true]
        rw [ih (List.Chain'.tail hchain) (fun c hc hw => hsp c (List.mem_cons_of_mem d hc) hw)]

end Util

namespace Util

theorem head?_append_left {α : Type} (x y : List α) (h : x ≠ []) :
    (x ++ y).head? = x.head? := by
  cases x with
  | nil => exact absurd rfl h
  | cons c r => rfl

theorem dropWhile_eq_self_of_head (p : α → Bool) (l : List α)
    (h : ∀ c, l.head? = some c → p c = false) : l.dropWhile p = l := by
  cases l with
  | nil => rfl
  | cons c r =>
      have := h c rfl
      simp [List.dropWhile, this]

theorem chain'_dropWhile {R : α → α → Prop} (p : α → Bool) (l : List α)
    (h : List.Chain' R l) : List.Chain' R (l.dropWhile p) := by
  induction l with
  | nil => simp
  | cons c r ih =>
      by_cases hc : p c
      · rw [List.dropWhile_cons_of_pos hc]
        exact ih (List.Chain'.tail h)
      · rwa [List.dropWhile_cons_of_neg hc]

theorem chain'_NoWsPair_reverse (l : List Char) (h : List.Chain' NoWsPair l) :
    List.Chain' NoWsPair l.reverse := by
  rw [List.chain'_reverse]
  exact List.Chain'.imp (fun a b hab hc => hab ⟨hc.2, hc.1⟩) h

theorem chain'_trimChars (l : List Char) (h : List.Chain' NoWsPair l) :
    List.Chain' NoWsPair (trimChars l) := by
  unfold trimChars
  exact chain'_NoWsPair_reverse _ (chain'_dropWhile isWs _
    (chain'_NoWsPair_reverse _ (chain'_dropWhile isWs l h)))

theorem trimChars_eq_self (l : List Char)
    (h1 : ∀ c, l.head? = some c → isWs c = false)
    (h2 : ∀ c, l.getLast? = some c → isWs c = false) : trimChars l = l := by
  unfold trimChars
  rw [dropWhile_eq_self_of_head isWs l h1]
  rw [dropWhile_eq_self_of_head isWs l.reverse (fun c hc => h2 c (by rwa [List.head?_reverse] at hc))]
  exact List.reverse_reverse l

/-- The trimmed list is a prefix of the front-trimmed list. -/
theorem trimChars_eq_prefix (l : List Char) :
    ∃ junk, l.dropWhile isWs = trimChars l ++ junk := by
  unfold trimChars
  refine ⟨(((l.dropWhile isWs).reverse.takeWhile isWs)).reverse, ?_⟩
  show l.dropWhile isWs =
    ((l.dropWhile isWs).reverse.dropWhile isWs).reverse ++
      ((l.dropWhile isWs).reverse.takeWhile isWs).reverse
  calc l.dropWhile isWs = ((l.dropWhile isWs).reverse).reverse :=
        (List.reverse_reverse _).symm
    _ = ((l.dropWhile isWs).reverse.takeWhile isWs ++
          (l.dropWhile isWs).reverse.dropWhile isWs).reverse := by
        rw [List.takeWhile_append_dropWhile]
    _ = ((l.dropWhile isWs).reverse.dropWhile isWs).reverse ++
          ((l.dropWhile isWs).reverse.takeWhile isWs).reverse := by
        rw [List.reverse_append]

theorem head?_trimChars (l : List Char) (c : Char) (h : (trimChars l).head? = some c) :
    isWs c = false := by
  obtain ⟨junk, hj⟩ := trimChars_eq_prefix l
  have hne : trimChars l ≠ [] := by
    intro hcon
    rw [hcon] at h
    simp at h
  have : (l.dropWhile isWs).head? = some c := by
    rw [hj, head?_append_left _ _ hne, h]
  exact head?_dropWhile_not isWs l c this

theorem getLast?_trimChars (l : List Char) (c : Char)
    (h : (trimChars l).getLast? = some c) : isWs c = false := by
  unfold trimChars at h
  rw [List.getLast?_reverse] at h
  exact head?_dropWhile_not isWs _ c h

theorem trimChars_idem (l : List Char) : trimChars (trimChars l) = trimChars l :=
  trimChars_eq_self _ (head?_trimChars l) (getLast?_trimChars l)

theorem mem_normalizeSpaceChars_ws (l : List Char) (c : Char)
    (h : c ∈ normalizeSpaceChars l) (hws : isWs c = true) : c = ' ' := by
  unfold normalizeSpaceChars at h
  exact mem_collapseWs_ws l false c (mem_trimChars _ c h) hws

theorem newline_not_mem_normalizeSpaceChars (l : List Char) :
    '\n' ∉ normalizeSpaceChars l := by
  intro h
  have := mem_normalizeSpaceChars_ws l '\n' h (by decide)
  exact absurd this (by decide)

theorem cr_not_mem_normalizeSpaceChars (l : List Char) :
    '\r' ∉ normalizeSpaceChars l := by
  intro h
  have := mem_normalizeSpaceChars_ws l '\r' h (by decide)
  exact absurd this (by decide)

theorem head?_normalizeSpaceChars (l : List Char) (c : Char)
    (h : (normalizeSpaceChars l).head? = some c) : isWs c = false :=
  head?_trimChars _ c h

theorem getLast?_normalizeSpaceChars (l : List Char) (c : Char)
    (h : (normalizeSpaceChars l).getLast? = some c) : isWs c = false :=
  getLast?_trimChars _ c h

theorem chain'_normalizeSpaceChars (l : List Char) :
    List.Chain' NoWsPair (normalizeSpaceChars l) :=
  chain'_trimChars _ (chain'_collapseWs l false)

theorem normalizeSpaceChars_idem (l : List Char) :
    normalizeSpaceChars (normalizeSpaceChars l) = normalizeSpaceChars l := by
  have hfix : collapseWs false (normalizeSpaceChars l) = normalizeSpaceChars l :=
    collapseWs_fixpoint _ (chain'_normalizeSpaceChars l)
      (fun c hc hw => mem_normalizeSpaceChars_ws l c hc hw)
  show trimChars (collapseWs false (normalizeSpaceChars l)) = normalizeSpaceChars l
  rw [hfix]
  exact trimChars_eq_self _ (head?_normalizeSpaceChars l) (getLast?_normalizeSpaceChars l)

end Util

namespace Util

theorem splitOnChar_ne_nil (sep : Char) (l : List Char) : splitOnChar sep l ≠ [] := by
  cases l with
  | nil => simp [splitOnChar]
  | cons c r =>
      by_cases hc : c = sep
      · simp [splitOnChar, hc]
      · simp only [splitOnChar, hc, if_false]
        cases h : splitOnChar sep r with
        | nil => simp
        | cons a t => simp

theorem splitOnChar_append (sep : Char) (x y : List Char) :
    splitOnChar sep (x ++ sep :: y) = splitOnChar sep x ++ splitOnChar sep y := by
  induction x with
  | nil => simp [splitOnChar]
  | cons c x' ih =>
      by_cases hc : c = sep
      · subst hc
        simp [splitOnChar, ih]
      · have hx := splitOnChar_ne_nil sep x'
        simp only [List.cons_append, splitOnChar, hc, if_false, List.append_eq]
        rw [ih]
        cases h : splitOnChar sep x' with
        | nil => exact absurd h hx
        | cons a t => simp

theorem splitOnChar_no_sep (sep : Char) (l : List Char) (h : sep ∉ l) :
    splitOnChar sep l = [l] := by
  induction l with
  | nil => rfl
  | cons c r ih =>
      have hc : ¬(c = sep) := fun hcon => h (hcon ▸ List.mem_cons_self c r)
      have hr : sep ∉ r := fun hcon => h (List.mem_cons_of_mem c hcon)
      simp only [splitOnChar, hc, if_false, ih hr]

theorem mem_splitOnChar_surrounded (sep : Char) (A bullet B : List Char)
    (h : sep ∉ bullet) :
    bullet ∈ splitOnChar sep (A ++ sep :: (bullet ++ sep :: B)) := by
  rw [splitOnChar_append, splitOnChar_append, splitOnChar_no_sep sep bullet h]
  simp

end Util

namespace Mem

/-- The result of `appendToSectionBase` always surrounds the bullet with its
own newlines. -/
theorem appendToSectionBase_shape (base sectionName bullet : String) :
    ∃ A B, (appendToSectionBase base sectionName bullet).data =
      A ++ '\n' :: (bullet.data ++ '\n' :: B) := by
  unfold appendToSectionBase
  cases hidx : Util.indexOfFrom ("## " ++ sectionName).data base.data 0 with
  | none =>
      refine ⟨Util.trimRightChars base.data ++ '\n' :: '\n' :: ("## " ++ sectionName).data,
        [], ?_⟩
      simp
  | some headerIndex =>
      refine ⟨Util.trimRightChars (base.data.take (insertAtIndex base sectionName headerIndex)),
        base.data.drop (insertAtIndex base sectionName headerIndex), ?_⟩
      simp

/-- A bullet line surrounded by newlines is collected in comparison form. -/
theorem mem_collectBullets_shape (A B content : List Char) (hne : content ≠ [])
    (hlast : ∀ c, content.getLast? = some c → Util.isWs c = false)
    (hnl : '\n' ∉ content) :
    Util.normalizeForCompareChars content ∈
      collectBullets ⟨A ++ '\n' :: (('-' :: ' ' :: content) ++ '\n' :: B)⟩ := by
  have hbul_nl : '\n' ∉ '-' :: ' ' :: content := by
    intro hmem
    rcases List.mem_cons.mp hmem with h1 | h1
    · exact absurd h1 (by decide)
    · rcases List.mem_cons.mp h1 with h2 | h2
      · exact absurd h2 (by decide)
      · exact hnl h2
  have hsplit : ('-' :: ' ' :: content) ∈
      Util.splitOnChar '\n' (A ++ '\n' :: (('-' :: ' ' :: content) ++ '\n' :: B)) :=
    Util.mem_splitOnChar_surrounded '\n' A _ B hbul_nl
  have htrim : Util.trimChars ('-' :: ' ' :: content) = '-' :: ' ' :: content := by
    refine Util.trimChars_eq_self _ ?_ ?_
    · intro c hc
      simp at hc
      rw [← hc]
      decide
    · intro c hc
      apply hlast c
      rw [show '-' :: ' ' :: content = ['-', ' '] ++ content from rfl,
        List.getLast?_append_of_ne_nil _ hne] at hc
      exact hc
  have hmarker : Util.isPrefixList "- ".data ('-' :: ' ' :: content) = true := by
    have h2 : "- ".data = ['-', ' '] := rfl
    rw [h2]
    simp [Util.isPrefixList]
  unfold collectBullets
  refine List.mem_map.mpr ⟨'-' :: ' ' :: content, ?_, rfl⟩
  refine List.mem_filter.mpr ⟨?_, hmarker⟩
  refine List.mem_map.mpr ⟨'-' :: ' ' :: content, ?_, htrim⟩
  exact hsplit

/-- The duplicate check of `appendUniqueBullet` finds a bullet just appended
by `appendToSection`. -/
theorem mem_collectBullets_appendToSection (markdown sectionName : String)
    (content : List Char) (hne : content ≠ [])
    (hlast : ∀ c, content.getLast? = some c → Util.isWs c = false)
    (hnl : '\n' ∉ content) :
    Util.normalizeForCompareChars content ∈
      collectBullets (appendToSection markdown sectionName ⟨'-' :: ' ' :: content⟩) := by
  unfold appendToSection
  obtain ⟨A, B, hAB⟩ := appendToSectionBase_shape
    (if Util.trimChars markdown.data = [] then DEFAULT_SEMANTIC_DOC else markdown)
    sectionName ⟨'-' :: ' ' :: content⟩
  have hstr : appendToSectionBase
      (if Util.trimChars markdown.data = [] then DEFAULT_SEMANTIC_DOC else markdown)
      sectionName ⟨'-' :: ' ' :: content⟩ =
      ⟨A ++ '\n' :: (('-' :: ' ' :: content) ++ '\n' :: B)⟩ := by
    apply String.ext
    exact hAB
  rw [hstr]
  exact mem_collectBullets_shape A B content hne hlast hnl

end Mem

namespace Mem

/-- `appendUniqueBullet` skips a duplicate without touching the file. -/
theorem appendUniqueBullet_dup (file : Option String) (sec raw fb : String)
    (hne : Util.normalizeSpaceChars raw.data ≠ [])
    (hmem : Util.normalizeForCompareChars (Util.normalizeSpaceChars raw.data) ∈
      collectBullets (file.getD "")) :
    appendUniqueBullet file sec raw fb = (file, false) := by
  simp only [appendUniqueBullet]
  rw [if_neg hne, if_pos hmem]

/-- `appendUniqueBullet` writes a fresh bullet through `appendToSection`. -/
theorem appendUniqueBullet_fresh (file : Option String) (sec raw fb : String)
    (hne : Util.normalizeSpaceChars raw.data ≠ [])
    (hmem : Util.normalizeForCompareChars (Util.normalizeSpaceChars raw.data) ∉
      collectBullets (file.getD "")) :
    appendUniqueBullet file sec raw fb =
      (some (appendToSection (if file.getD "" = "" then fb else file.getD "") sec
        ⟨'-' :: ' ' :: Util.normalizeSpaceChars raw.data⟩), true) := by
  simp only [appendUniqueBullet]
  rw [if_neg hne, if_neg hmem]

/-- C8 (amended): for text whose whitespace normalization is non-empty, a
second `rememberThis` of the same text reports it as already remembered and
leaves the semantic store byte for byte as the first call left it (the second
call skips the semantic write; the goal upsert and the episodic append touch
other files). -/
theorem remember_idempotent_normalized (upsert1 upsert2 : Option String → Option String)
    (d1 t1 d2 t2 : String) (st : MemFiles) (text : String)
    (hclean : Util.normalizeSpaceChars text.data ≠ []) :
    (rememberThis upsert2 d2 t2 (rememberThis upsert1 d1 t1 st text).1 text).2 =
      "Already remembered: " ++ (⟨Util.normalizeSpaceChars text.data⟩ : String) ∧
    (rememberThis upsert2 d2 t2 (rememberThis upsert1 d1 t1 st text).1 text).1.semantic =
      (rememberThis upsert1 d1 t1 st text).1.semantic := by
  have hdata : ((⟨Util.normalizeSpaceChars text.data⟩ : String)).data =
      Util.normalizeSpaceChars text.data := rfl
  have hcs : ¬ ((⟨Util.normalizeSpaceChars text.data⟩ : String) = "") := by
    intro hcon
    apply hclean
    have h2 : ((⟨Util.normalizeSpaceChars text.data⟩ : String)).data = "".data := by
      rw [hcon]
    simpa using h2
  have hidem : Util.normalizeSpaceChars ((⟨Util.normalizeSpaceChars text.data⟩ : String)).data =
      Util.normalizeSpaceChars text.data := Util.normalizeSpaceChars_idem text.data
  have hne2 : Util.normalizeSpaceChars ((⟨Util.normalizeSpaceChars text.data⟩ : String)).data ≠ [] := by
    rw [hidem]; exact hclean
  by_cases hdup : Util.normalizeForCompareChars
      (Util.normalizeSpaceChars ((⟨Util.normalizeSpaceChars text.data⟩ : String)).data) ∈
      collectBullets (st.semantic.getD "")
  · -- the text was already stored: both calls skip, nothing changes
    have happ1 := appendUniqueBullet_dup st.semantic "Known Facts"
      ⟨Util.normalizeSpaceChars text.data⟩ DEFAULT_SEMANTIC_DOC hne2 hdup
    simp [rememberThis, if_neg hcs, happ1]
  · -- first call writes the bullet; the second call finds it
    have happ1 := appendUniqueBullet_fresh st.semantic "Known Facts"
      ⟨Util.normalizeSpaceChars text.data⟩ DEFAULT_SEMANTIC_DOC hne2 hdup
    have hmem2 : Util.normalizeForCompareChars
        (Util.normalizeSpaceChars ((⟨Util.normalizeSpaceChars text.data⟩ : String)).data) ∈
        collectBullets ((some (appendToSection
          (if st.semantic.getD "" = "" then DEFAULT_SEMANTIC_DOC else st.semantic.getD "")
          "Known Facts"
          ⟨'-' :: ' ' :: Util.normalizeSpaceChars
            ((⟨Util.normalizeSpaceChars text.data⟩ : String)).data⟩) : Option String).getD "") := by
      rw [hidem]
      exact mem_collectBullets_appendToSection
        (if st.semantic.getD "" = "" then DEFAULT_SEMANTIC_DOC else st.semantic.getD "")
        "Known Facts" (Util.normalizeSpaceChars text.data) hclean
        (Util.getLast?_normalizeSpaceChars text.data)
        (Util.newline_not_mem_normalizeSpaceChars text.data)
    have happ2 := appendUniqueBullet_dup
      (some (appendToSection
        (if st.semantic.getD "" = "" then DEFAULT_SEMANTIC_DOC else st.semantic.getD "")
        "Known Facts"
        ⟨'-' :: ' ' :: Util.normalizeSpaceChars ((⟨Util.normalizeSpaceChars text.data⟩ : String)).data⟩))
      "Known Facts" ⟨Util.normalizeSpaceChars text.data⟩ DEFAULT_SEMANTIC_DOC hne2 hmem2
    simp [rememberThis, if_neg hcs, happ1, happ2]

end Mem

namespace Mem

/-- Witness for the amended C8 at a concrete fact. -/
theorem remember_idempotent_normalized_witness :
    (Util.normalizeSpaceChars ("Likes coffee" : String).data ≠ []) ∧
    ((rememberThis id "2024-01-02" "09:00:00"
        (rememberThis id "2024-01-01" "12:00:00" memFiles0 "Likes coffee").1
        "Likes coffee").2 =
      "Already remembered: " ++
        (⟨Util.normalizeSpaceChars ("Likes coffee" : String).data⟩ : String) ∧
    (rememberThis id "2024-01-02" "09:00:00"
        (rememberThis id "2024-01-01" "12:00:00" memFiles0 "Likes coffee").1
        "Likes coffee").1.semantic =
      (rememberThis id "2024-01-01" "12:00:00" memFiles0 "Likes coffee").1.semantic) :=
  ⟨by decide,
    remember_idempotent_normalized id id "2024-01-01" "12:00:00" "2024-01-02" "09:00:00"
      memFiles0 "Likes coffee" (by decide)⟩

/-- C8 counterexample: whitespace is non-empty text, but its normalization is
empty, so the second call answers `Nothing to remember.` instead of an
already-remembered status. -/
theorem remember_whitespace_cx :
    (("   " : String) ≠ "") ∧
    (rememberThis id "2024-01-01" "12:00:00"
        (rememberThis id "2024-01-01" "12:00:00" memFiles0 "   ").1 "   ").2 =
      "Nothing to remember." ∧
    Util.startsWithStr
        (rememberThis id "2024-01-01" "12:00:00"
          (rememberThis id "2024-01-01" "12:00:00" memFiles0 "   ").1 "   ").2
        "Already" = false := by
  decide

/-- C10 (amended): for text with non-empty normalization, `rememberThis`
always appends the stamped entry to the day's episodic file — also when the
fact is a duplicate — and a duplicate skips only the semantic store write. -/
theorem remember_always_logs_episode (upsert : Option String → Option String)
    (d t : String) (st : MemFiles) (text : String)
    (hclean : Util.normalizeSpaceChars text.data ≠ []) :
    (rememberThis upsert d t st text).1.episodic =
      some (writeEpisode st.episodic d t
        ("User explicitly stored: \"" ++
          clip ⟨Util.normalizeSpaceChars text.data⟩ 160 ++ "\"")) ∧
    (Util.normalizeForCompareChars (Util.normalizeSpaceChars text.data) ∈
        collectBullets (st.semantic.getD "") →
      (rememberThis upsert d t st text).1.semantic = st.semantic) := by
  have hcs : ¬ ((⟨Util.normalizeSpaceChars text.data⟩ : String) = "") := by
    intro hcon
    apply hclean
    have h2 : ((⟨Util.normalizeSpaceChars text.data⟩ : String)).data = "".data := by
      rw [hcon]
    simpa using h2
  have hidem : Util.normalizeSpaceChars ((⟨Util.normalizeSpaceChars text.data⟩ : String)).data =
      Util.normalizeSpaceChars text.data := Util.normalizeSpaceChars_idem text.data
  have hne2 : Util.normalizeSpaceChars
      ((⟨Util.normalizeSpaceChars text.data⟩ : String)).data ≠ [] := by
    rw [hidem]; exact hclean
  constructor
  · simp [rememberThis, if_neg hcs]
  · intro hdup
    have happ := appendUniqueBullet_dup st.semantic "Known Facts"
      ⟨Util.normalizeSpaceChars text.data⟩ DEFAULT_SEMANTIC_DOC hne2
      (by rw [hidem]; exact hdup)
    simp [rememberThis, if_neg hcs, happ]

/-- Witness for the amended C10 at a concrete fact already on record. -/
theorem remember_always_logs_episode_witness :
    (Util.normalizeSpaceChars ("Likes coffee" : String).data ≠ []) ∧
    ((rememberThis id "2024-01-01" "12:00:00" memFiles0 "Likes coffee").1.episodic =
      some (writeEpisode memFiles0.episodic "2024-01-01" "12:00:00"
        ("User explicitly stored: \"" ++
          clip ⟨Util.normalizeSpaceChars ("Likes coffee" : String).data⟩ 160 ++ "\"")) ∧
    (Util.normalizeForCompareChars
        (Util.normalizeSpaceChars ("Likes coffee" : String).data) ∈
        collectBullets (memFiles0.semantic.getD "") →
      (rememberThis id "2024-01-01" "12:00:00" memFiles0 "Likes coffee").1.semantic =
        memFiles0.semantic)) :=
  ⟨by decide,
    remember_always_logs_episode id "2024-01-01" "12:00:00" memFiles0 "Likes coffee"
      (by decide)⟩

/-- C10 counterexample: whitespace is non-empty text, yet the call returns
before the episodic write — the day file stays missing, no entry is
appended. -/
theorem remember_whitespace_no_episodic_cx :
    (("   " : String) ≠ "") ∧
    (rememberThis id "2024-01-01" "12:00:00" memFiles0 "   ").1.episodic =
      memFiles0.episodic ∧
    (rememberThis id "2024-01-01" "12:00:00" memFiles0 "   ").1.episodic = none := by
  decide

end Mem

end Spec2Proof

namespace Spec2Proof
namespace Util

theorem NlFree.append {a b : List Char} (ha : NlFree a) (hb : NlFree b) :
    NlFree (a ++ b) := by
  constructor
  · intro h
    rcases List.mem_append.mp h with h1 | h1
    · exact ha.1 h1
    · exact hb.1 h1
  · intro h
    rcases List.mem_append.mp h with h1 | h1
    · exact ha.2 h1
    · exact hb.2 h1

theorem NlFree.norm (l : List Char) : NlFree (normalizeSpaceChars l) :=
  ⟨newline_not_mem_normalizeSpaceChars l, cr_not_mem_normalizeSpaceChars l⟩

theorem trimRightChars_append_ws (x : List Char) (w : Char) (hw : isWs w = true) :
    trimRightChars (x ++ [w]) = trimRightChars x := by
  unfold trimRightChars
  rw [List.reverse_append]
  simp [List.dropWhile, hw]

theorem trimRightChars_eq_self_concat (y : List Char) (c : Char) (hc : isWs c = false) :
    trimRightChars (y ++ [c]) = y ++ [c] := by
  unfold trimRightChars
  rw [List.reverse_append]
  simp [List.dropWhile, hc]

theorem joinLines_append_empty (X : List (List Char)) (hne : X ≠ []) :
    joinLines (X ++ [[]]) = joinLines X ++ ['\n'] := by
  induction X with
  | nil => exact absurd rfl hne
  | cons x rest ih =>
      cases rest with
      | nil => rfl
      | cons y rest' =>
          have h := ih (by simp)
          show x ++ '\n' :: joinLines ((y :: rest') ++ [[]]) =
            (x ++ '\n' :: joinLines (y :: rest')) ++ ['\n']
          rw [h]
          simp

theorem joinLines_concat_last (init : List (List Char)) (last : List Char) :
    ∃ y, joinLines (init ++ [last]) = y ++ last := by
  induction init with
  | nil => exact ⟨[], rfl⟩
  | cons x rest ih =>
      obtain ⟨y, hy⟩ := ih
      refine ⟨x ++ '\n' :: y, ?_⟩
      have hcons : ∃ z zs, rest ++ [last] = z :: zs := by
        cases rest with
        | nil => exact ⟨last, [], rfl⟩
        | cons a b => exact ⟨a, b ++ [last], rfl⟩
      obtain ⟨z, zs, hz⟩ := hcons
      show joinLines (x :: (rest ++ [last])) = (x ++ '\n' :: y) ++ last
      rw [hz]
      show x ++ '\n' :: joinLines (z :: zs) = (x ++ '\n' :: y) ++ last
      rw [← hz, hy]
      simp

theorem splitOnChar_joinLines (lines : List (List Char)) (hne : lines ≠ [])
    (hnl : ∀ l ∈ lines, '\n' ∉ l) :
    splitOnChar '\n' (joinLines lines) = lines := by
  induction lines with
  | nil => exact absurd rfl hne
  | cons l rest ih =>
      cases rest with
      | nil =>
          show splitOnChar '\n' l = [l]
          exact splitOnChar_no_sep '\n' l (hnl l (List.mem_cons_self l []))
      | cons m rest' =>
          show splitOnChar '\n' (l ++ '\n' :: joinLines (m :: rest')) = l :: m :: rest'
          rw [splitOnChar_append, splitOnChar_no_sep '\n' l (hnl l (List.mem_cons_self l _)),
            ih (by simp) (fun x hx => hnl x (List.mem_cons_of_mem l hx))]
          rfl

theorem stripCR_eq_self (l : List Char) (h : '\r' ∉ l) : stripCR l = l := by
  unfold stripCR
  cases hl : l.getLast? with
  | none => rfl
  | some c =>
      have hc : c ∈ l := by
        obtain ⟨hne, hEq⟩ := List.mem_getLast?_eq_getLast (Option.mem_def.mpr hl)
        rw [hEq]
        exact List.getLast_mem hne
      have hneq : ¬(c = '\r') := fun hcon => h (hcon ▸ hc)
      simp [hneq]

theorem map_eq_self {f : α → α} {l : List α} (h : ∀ x ∈ l, f x = x) : l.map f = l := by
  induction l with
  | nil => rfl
  | cons x rest ih =>
      rw [List.map_cons, h x (List.mem_cons_self x rest),
        ih (fun y hy => h y (List.mem_cons_of_mem x hy))]

/-- Splitting the rendered document recovers the lines: the render is
`join + trimEnd + newline`, and a line list ending in one empty line whose
predecessor ends in a non-whitespace character renders reversibly. -/
theorem splitLines_render (lines : List (List Char))
    (hnl : ∀ l ∈ lines, NlFree l)
    (init : List (List Char)) (last : List Char) (c : Char)
    (hshape : lines = (init ++ [last ++ [c]]) ++ [[]]) (hc : isWs c = false) :
    splitLines (trimRightChars (joinLines lines) ++ ['\n']) = lines := by
  subst hshape
  have hjoin1 : joinLines ((init ++ [last ++ [c]]) ++ [[]]) =
      joinLines (init ++ [last ++ [c]]) ++ ['\n'] :=
    joinLines_append_empty _ (by simp)
  obtain ⟨y, hy⟩ := joinLines_concat_last init (last ++ [c])
  have htrim : trimRightChars (joinLines ((init ++ [last ++ [c]]) ++ [[]])) =
      joinLines (init ++ [last ++ [c]]) := by
    rw [hjoin1, trimRightChars_append_ws _ '\n' (by decide), hy, ← List.append_assoc,
      trimRightChars_eq_self_concat _ c hc]
  have hnl1 : ∀ l ∈ (init ++ [last ++ [c]]) ++ [[]], '\n' ∉ l := by
    intro l hl
    rcases List.mem_append.mp hl with h1 | h1
    · exact (hnl l (List.mem_append.mpr (Or.inl h1))).1
    · simp at h1
      subst h1
      simp
  have hnl2 : ∀ l ∈ (init ++ [last ++ [c]]) ++ [[]], '\r' ∉ l := by
    intro l hl
    rcases List.mem_append.mp hl with h1 | h1
    · exact (hnl l (List.mem_append.mpr (Or.inl h1))).2
    · simp at h1
      subst h1
      simp
  rw [htrim, ← hjoin1]
  unfold splitLines
  rw [splitOnChar_joinLines _ (by simp) hnl1]
  apply map_eq_self
  intro x hx
  exact stripCR_eq_self x (hnl2 x hx)

end Util
end Spec2Proof

namespace Spec2Proof
namespace Mem

theorem wfStrB_fix {s : String} (h : wfStrB s = true) :
    Util.normalizeSpaceChars s.data = s.data := by
  unfold wfStrB at h
  exact of_decide_eq_true (Bool.and_elim_left h)

theorem wfStrB_ne {s : String} (h : wfStrB s = true) : s.data ≠ [] := by
  unfold wfStrB at h
  exact of_decide_eq_true (Bool.and_elim_right h)

theorem wfStrB_head {s : String} (h : wfStrB s = true) :
    ∀ c, s.data.head? = some c → Util.isWs c = false := by
  intro c hc
  rw [← wfStrB_fix h] at hc
  exact Util.head?_normalizeSpaceChars s.data c hc

theorem wfStrB_last {s : String} (h : wfStrB s = true) :
    ∀ c, s.data.getLast? = some c → Util.isWs c = false := by
  intro c hc
  rw [← wfStrB_fix h] at hc
  exact Util.getLast?_normalizeSpaceChars s.data c hc

theorem wfStrB_nlFree {s : String} (h : wfStrB s = true) : Util.NlFree s.data := by
  rw [← wfStrB_fix h]
  exact Util.NlFree.norm s.data

theorem wfStrB_chain {s : String} (h : wfStrB s = true) :
    List.Chain' Util.NoWsPair s.data := by
  rw [← wfStrB_fix h]
  exact Util.chain'_normalizeSpaceChars s.data

theorem wfStrB_ws_space {s : String} (h : wfStrB s = true) :
    ∀ c ∈ s.data, Util.isWs c = true → c = ' ' := by
  intro c hc hw
  rw [← wfStrB_fix h] at hc
  exact Util.mem_normalizeSpaceChars_ws s.data c hc hw

theorem safeNote_eq {note : String} (hfix : Util.normalizeSpaceChars note.data = note.data)
    (hpipe : '|' ∉ note.data) : safeNote note = note.data := by
  unfold safeNote
  rw [hfix]
  apply Util.map_eq_self
  intro c hc
  have : ¬(c = '|') := fun hcon => hpipe (hcon ▸ hc)
  simp [this]

theorem statusString_wf (st : GoalStatus) : wfStrB (statusString st) = true := by
  cases st <;> decide

theorem sourceString_wf (src : GoalSource) : wfStrB (sourceString src) = true := by
  cases src <;> decide

/-- The character content of a joined tag list. -/
theorem mem_joinComma (ts : List (List Char)) (c : Char) (h : c ∈ joinComma ts) :
    c ∈ (", " : String).data ∨ ∃ t ∈ ts, c ∈ t := by
  induction ts with
  | nil => simp [joinComma] at h
  | cons t rest ih =>
      cases rest with
      | nil =>
          right
          exact ⟨t, List.mem_cons_self t [], h⟩
      | cons u rest' =>
          have h2 : c ∈ t ++ ", ".data ++ joinComma (u :: rest') := h
          rcases List.mem_append.mp h2 with h3 | h3
          · rcases List.mem_append.mp h3 with h4 | h4
            · exact Or.inr ⟨t, List.mem_cons_self t _, h4⟩
            · exact Or.inl h4
          · rcases ih h3 with h4 | ⟨t', ht', hc'⟩
            · exact Or.inl h4
            · exact Or.inr ⟨t', List.mem_cons_of_mem t ht', hc'⟩

theorem nlFree_joinComma (ts : List (List Char)) (h : ∀ t ∈ ts, Util.NlFree t) :
    Util.NlFree (joinComma ts) := by
  constructor
  · intro hc
    rcases mem_joinComma ts '\n' hc with h1 | ⟨t, ht, hc'⟩
    · simp at h1
    · exact (h t ht).1 hc'
  · intro hc
    rcases mem_joinComma ts '\r' hc with h1 | ⟨t, ht, hc'⟩
    · simp at h1
    · exact (h t ht).2 hc'

theorem wfEntryB_parts {p : GoalProgressEntry} (hwf : wfEntryB p = true) :
    wfStrB p.entryAt = true ∧ ']' ∉ p.entryAt.data ∧ p.entryAt ≠ "n/a" ∧
      wfStrB p.note = true ∧ ']' ∉ p.note.data ∧ '|' ∉ p.note.data := by
  simp only [wfEntryB, Bool.and_eq_true, decide_eq_true_eq] at hwf
  obtain ⟨⟨⟨⟨⟨h1, h2⟩, h3⟩, h4⟩, h5⟩, h6⟩ := hwf
  exact ⟨h1, h2, h3, h4, h5, h6⟩

theorem progressLine_nlFree (p : GoalProgressEntry) (hwf : wfEntryB p = true) :
    Util.NlFree (progressLine p) := by
  obtain ⟨h1, -, -, h2, -, h3⟩ := wfEntryB_parts hwf
  have l1 : Util.NlFree ("- [".data) := ⟨by decide, by decide⟩
  have l2 : Util.NlFree ("] (".data) := ⟨by decide, by decide⟩
  have l3 : Util.NlFree (") ".data) := ⟨by decide, by decide⟩
  have hsrc : Util.NlFree ((sourceString p.source).data) := by
    cases p.source <;> exact ⟨by decide, by decide⟩
  have hnote : Util.NlFree (safeNote p.note) := by
    rw [safeNote_eq (wfStrB_fix h2) h3]
    exact wfStrB_nlFree h2
  exact ((((l1.append (wfStrB_nlFree h1)).append l2).append hsrc).append l3).append hnote

end Mem
end Spec2Proof

namespace Spec2Proof
namespace Util

theorem trimChars_cons_ws (w : Char) (hw : isWs w = true) (l : List Char) :
    trimChars (w :: l) = trimChars l := by
  unfold trimChars
  rw [List.dropWhile_cons_of_pos hw]

theorem trim_collapse_true_false (l : List Char) :
    trimChars (collapseWs true l) = trimChars (collapseWs false l) := by
  cases l with
  | nil => rfl
  | cons c r =>
      by_cases hc : isWs c
      · simp only [collapseWs, hc, if_true, Bool.false_eq_true, if_false]
        rw [trimChars_cons_ws ' ' (by decide)]
      · simp only [collapseWs, hc, if_false, Bool.false_eq_true]

theorem normalizeSpaceChars_cons_space (l : List Char) :
    normalizeSpaceChars (' ' :: l) = normalizeSpaceChars l := by
  unfold normalizeSpaceChars
  have hsp : isWs ' ' = true := by decide
  simp only [collapseWs, hsp, if_true, Bool.false_eq_true, if_false]
  rw [trimChars_cons_ws ' ' (by decide)]
  exact trim_collapse_true_false l

theorem normalizeSpaceChars_eq_self (l : List Char)
    (hchain : List.Chain' NoWsPair l)
    (hsp : ∀ c ∈ l, isWs c = true → c = ' ')
    (h1 : ∀ c, l.head? = some c → isWs c = false)
    (h2 : ∀ c, l.getLast? = some c → isWs c = false) :
    normalizeSpaceChars l = l := by
  unfold normalizeSpaceChars
  rw [collapseWs_fixpoint l hchain hsp]
  exact trimChars_eq_self l h1 h2

end Util

namespace Mem

theorem wsCapture_space (v : List Char) (hne : v ≠ [])
    (hhead : ∀ c, v.head? = some c → Util.isWs c = false) :
    wsCapture (' ' :: v) = some v := by
  cases v with
  | nil => exact absurd rfl hne
  | cons d r =>
      have hd := hhead d rfl
      have hsp : Util.isWs ' ' = true := by decide
      simp [wsCapture, hsp, List.dropWhile, hd]

theorem parseLine_goalHeader (fid fts : String) (acc : ParseAcc) (v : String)
    (hwf : wfStrB v = true) :
    parseLine fid fts acc ("## Goal: ".data ++ v.data) =
      ⟨some { id := fid, title := v, status := .active, createdAt := fts,
              updatedAt := fts, tags := [], progress := [] },
       (flushCurrent acc).goals⟩ := by
  have hm : matchKeyVal "## Goal:" ("## Goal: ".data ++ v.data) =
      wsCapture (' ' :: v.data) := rfl
  unfold parseLine
  rw [hm, wsCapture_space v.data (wfStrB_ne hwf) (wfStrB_head hwf)]
  show (⟨some { id := fid, title := ⟨Util.normalizeSpaceChars v.data⟩, status := .active,
                createdAt := fts, updatedAt := fts, tags := [], progress := [] },
         (flushCurrent acc).goals⟩ : ParseAcc) = _
  rw [wfStrB_fix hwf]

theorem parseLine_id (fid fts : String) (g : GoalRecord) (G : List GoalRecord)
    (v : String) (hwf : wfStrB v = true) :
    parseLine fid fts ⟨some g, G⟩ ("- id: ".data ++ v.data) =
      ⟨some { g with id := v }, G⟩ := by
  have h0 : matchKeyVal "## Goal:" ("- id: ".data ++ v.data) = none := rfl
  have hm : matchKeyVal "- id:" ("- id: ".data ++ v.data) =
      wsCapture (' ' :: v.data) := rfl
  unfold parseLine
  rw [h0, hm, wsCapture_space v.data (wfStrB_ne hwf) (wfStrB_head hwf)]
  show (⟨some { g with id := ⟨Util.normalizeSpaceChars v.data⟩ }, G⟩ : ParseAcc) = _
  rw [wfStrB_fix hwf]

theorem parseLine_createdAt (fid fts : String) (g : GoalRecord) (G : List GoalRecord)
    (v : String) (hwf : wfStrB v = true) :
    parseLine fid fts ⟨some g, G⟩ ("- created_at: ".data ++ v.data) =
      ⟨some { g with createdAt := v }, G⟩ := by
  have h0 : matchKeyVal "## Goal:" ("- created_at: ".data ++ v.data) = none := rfl
  have h1 : matchKeyVal "- id:" ("- created_at: ".data ++ v.data) = none := rfl
  have h2 : matchKeyVal "- status:" ("- created_at: ".data ++ v.data) = none := rfl
  have hm : matchKeyVal "- created_at:" ("- created_at: ".data ++ v.data) =
      wsCapture (' ' :: v.data) := rfl
  unfold parseLine
  rw [h0, h1, h2, hm, wsCapture_space v.data (wfStrB_ne hwf) (wfStrB_head hwf)]
  show (⟨some { g with createdAt := ⟨Util.normalizeSpaceChars v.data⟩ }, G⟩ : ParseAcc) = _
  rw [wfStrB_fix hwf]

theorem parseLine_updatedAt (fid fts : String) (g : GoalRecord) (G : List GoalRecord)
    (v : String) (hwf : wfStrB v = true) :
    parseLine fid fts ⟨some g, G⟩ ("- updated_at: ".data ++ v.data) =
      ⟨some { g with updatedAt := v }, G⟩ := by
  have h0 : matchKeyVal "## Goal:" ("- updated_at: ".data ++ v.data) = none := rfl
  have h1 : matchKeyVal "- id:" ("- updated_at: ".data ++ v.data) = none := rfl
  have h2 : matchKeyVal "- status:" ("- updated_at: ".data ++ v.data) = none := rfl
  have h3 : matchKeyVal "- created_at:" ("- updated_at: ".data ++ v.data) = none := rfl
  have hm : matchKeyVal "- updated_at:" ("- updated_at: ".data ++ v.data) =
      wsCapture (' ' :: v.data) := rfl
  unfold parseLine
  rw [h0, h1, h2, h3, hm, wsCapture_space v.data (wfStrB_ne hwf) (wfStrB_head hwf)]
  show (⟨some { g with updatedAt := ⟨Util.normalizeSpaceChars v.data⟩ }, G⟩ : ParseAcc) = _
  rw [wfStrB_fix hwf]

theorem parseLine_status (fid fts : String) (g : GoalRecord) (G : List GoalRecord)
    (st : GoalStatus) :
    parseLine fid fts ⟨some g, G⟩ ("- status: ".data ++ (statusString st).data) =
      ⟨some { g with status := st }, G⟩ := by
  cases st <;> rfl

end Mem
end Spec2Proof

namespace Spec2Proof
namespace Util

theorem noWsPair_left {c : Char} (d : Char) (hc : isWs c = false) : NoWsPair c d :=
  fun hcon => Bool.false_ne_true (hc ▸ hcon.1)

theorem noWsPair_right (c : Char) {d : Char} (hd : isWs d = false) : NoWsPair c d :=
  fun hcon => Bool.false_ne_true (hd ▸ hcon.2)

end Util

namespace Mem

theorem wfTagB_parts {t : String} (h : wfTagB t = true) :
    wfStrB t = true ∧ ',' ∉ t.data := by
  simp only [wfTagB, Bool.and_eq_true, decide_eq_true_eq] at h
  exact h

theorem joinComma_ne_nil (t : List Char) (ts : List (List Char)) (ht : t ≠ []) :
    joinComma (t :: ts) ≠ [] := by
  cases ts with
  | nil => exact ht
  | cons u rest =>
      show t ++ ", ".data ++ joinComma (u :: rest) ≠ []
      simp [ht]

theorem joinComma_head (t : List Char) (ts : List (List Char)) (ht : t ≠ []) :
    (joinComma (t :: ts)).head? = t.head? := by
  cases ts with
  | nil => rfl
  | cons u rest =>
      show ((t ++ ", ".data) ++ joinComma (u :: rest)).head? = t.head?
      rw [Util.head?_append_left _ _ (by simp [ht]), Util.head?_append_left _ _ ht]

theorem joinComma_last_not_ws (ts : List (List Char)) :
    ∀ t : List Char,
      (∀ x ∈ t :: ts, x ≠ [] ∧ ∀ c, x.getLast? = some c → Util.isWs c = false) →
      ∀ c, (joinComma (t :: ts)).getLast? = some c → Util.isWs c = false := by
  induction ts with
  | nil =>
      intro t hall c hc
      exact (hall t (List.mem_cons_self t [])).2 c hc
  | cons u rest ih =>
      intro t hall c hc
      have hune : joinComma (u :: rest) ≠ [] :=
        joinComma_ne_nil u rest (hall u (by simp)).1
      have hstep : joinComma (t :: u :: rest) = (t ++ ", ".data) ++ joinComma (u :: rest) := rfl
      rw [hstep, List.getLast?_append_of_ne_nil _ hune] at hc
      exact ih u (fun x hx => hall x (List.mem_cons_of_mem t hx)) c hc

theorem joinComma_chain (ts : List String) (h : ∀ t ∈ ts, wfTagB t = true) :
    List.Chain' Util.NoWsPair (joinComma (ts.map String.data)) := by
  induction ts with
  | nil => simp [joinComma]
  | cons t rest ih =>
      have hwt := (wfTagB_parts (h t (List.mem_cons_self t rest))).1
      have hrest : ∀ u ∈ rest, wfTagB u = true :=
        fun u hu => h u (List.mem_cons_of_mem t hu)
      cases rest with
      | nil => exact wfStrB_chain hwt
      | cons u rest' =>
          have hwu := (wfTagB_parts (hrest u (List.mem_cons_self u rest'))).1
          have hstep : joinComma ((t :: u :: rest').map String.data) =
              (t.data ++ ", ".data) ++ joinComma ((u :: rest').map String.data) := rfl
          rw [hstep, List.chain'_append]
          refine ⟨?_, ih hrest, ?_⟩
          · rw [List.chain'_append]
            refine ⟨wfStrB_chain hwt, ?_, ?_⟩
            · exact List.chain'_cons.mpr ⟨Util.noWsPair_left ' ' (by decide),
                List.chain'_singleton ' '⟩
            · intro x _ y hy
              simp at hy
              subst hy
              exact Util.noWsPair_right x (by decide)
          · intro x hx y hy
            rw [List.getLast?_append_of_ne_nil _ (by decide), Option.mem_def] at hx
            have hx' : x = ' ' := by
              cases hx
              rfl
            subst hx'
            rw [Option.mem_def, show ((u :: rest').map String.data) =
              u.data :: rest'.map String.data from rfl,
              joinComma_head u.data _ (wfStrB_ne hwu)] at hy
            exact Util.noWsPair_right ' ' (wfStrB_head hwu y hy)

theorem joinComma_ws_space (ts : List String) (h : ∀ t ∈ ts, wfTagB t = true) :
    ∀ c ∈ joinComma (ts.map String.data), Util.isWs c = true → c = ' ' := by
  intro c hc hw
  rcases mem_joinComma _ c hc with h1 | ⟨x, hx, hcx⟩
  · rcases List.mem_cons.mp h1 with h2 | h2
    · subst h2; exact absurd hw (by decide)
    · simp at h2
      exact h2
  · obtain ⟨s, hs, rfl⟩ := List.mem_map.mp hx
    exact wfStrB_ws_space (wfTagB_parts (h s hs)).1 c hcx hw

theorem joinComma_fix (ts : List String) (h : ∀ t ∈ ts, wfTagB t = true) :
    Util.normalizeSpaceChars (joinComma (ts.map String.data)) =
      joinComma (ts.map String.data) := by
  cases ts with
  | nil => rfl
  | cons t rest =>
      have hwt := (wfTagB_parts (h t (List.mem_cons_self t rest))).1
      refine Util.normalizeSpaceChars_eq_self _ (joinComma_chain _ h)
        (joinComma_ws_space _ h) ?_ ?_
      · intro c hc
        rw [show (t :: rest).map String.data = t.data :: rest.map String.data from rfl,
          joinComma_head t.data _ (wfStrB_ne hwt)] at hc
        exact wfStrB_head hwt c hc
      · intro c hc
        rw [show (t :: rest).map String.data = t.data :: rest.map String.data from rfl] at hc
        refine joinComma_last_not_ws (rest.map String.data) t.data ?_ c hc
        intro x hx
        rcases List.mem_cons.mp hx with h2 | h2
        · subst h2
          exact ⟨wfStrB_ne hwt, wfStrB_last hwt⟩
        · obtain ⟨s, hs, rfl⟩ := List.mem_map.mp h2
          have hws := (wfTagB_parts (h s (List.mem_cons_of_mem t hs))).1
          exact ⟨wfStrB_ne hws, wfStrB_last hws⟩

theorem splitComma_join (ts : List (List Char)) :
    ∀ t0, ',' ∉ t0 → (∀ t ∈ ts, ',' ∉ t) →
      Util.splitOnChar ',' (joinComma (t0 :: ts)) =
        t0 :: ts.map (fun u => ' ' :: u) := by
  induction ts with
  | nil =>
      intro t0 h0 _
      exact Util.splitOnChar_no_sep ',' t0 h0
  | cons u rest ih =>
      intro t0 h0 hts
      have hu : ',' ∉ u := hts u (List.mem_cons_self u rest)
      have hrest : ∀ x ∈ rest, ',' ∉ x := fun x hx => hts x (List.mem_cons_of_mem u hx)
      have hj : joinComma (t0 :: u :: rest) = t0 ++ ',' :: ' ' :: joinComma (u :: rest) := by
        show t0 ++ ", ".data ++ joinComma (u :: rest) = _
        rw [List.append_assoc]
        rfl
      rw [hj, Util.splitOnChar_append ',' t0 (' ' :: joinComma (u :: rest)),
        Util.splitOnChar_no_sep ',' t0 h0]
      have hih := ih u hu hrest
      have hsp : Util.splitOnChar ',' (' ' :: joinComma (u :: rest)) =
          (' ' :: u) :: rest.map (fun w => ' ' :: w) := by
        simp [Util.splitOnChar, hih]
      rw [hsp]
      rfl

end Mem
end Spec2Proof

namespace Spec2Proof
namespace Mem

theorem parseLine_tags_raw (fid fts : String) (g : GoalRecord) (G : List GoalRecord)
    (X : List Char) :
    parseLine fid fts ⟨some g, G⟩ ("- tags: ".data ++ X) =
      ⟨some { g with tags := tagsOfRaw X }, G⟩ := rfl

theorem tagsOfRaw_join (ts : List String) (h : ∀ t ∈ ts, wfTagB t = true) :
    tagsOfRaw (joinComma (ts.map String.data)) = ts := by
  cases ts with
  | nil => rfl
  | cons t rest =>
      have hwt := (wfTagB_parts (h t (List.mem_cons_self t rest))).1
      have hrest : ∀ u ∈ rest, wfTagB u = true :=
        fun u hu => h u (List.mem_cons_of_mem t hu)
      unfold tagsOfRaw
      rw [List.map_cons]
      have hcons : t.data :: rest.map String.data = (t :: rest).map String.data := rfl
      have hne : joinComma (t.data :: rest.map String.data) ≠ [] :=
        joinComma_ne_nil t.data _ (wfStrB_ne hwt)
      have hdrop : (joinComma (t.data :: rest.map String.data)).dropWhile Util.isWs =
          joinComma (t.data :: rest.map String.data) := by
        refine Util.dropWhile_eq_self_of_head Util.isWs _ ?_
        intro c hc
        rw [joinComma_head t.data _ (wfStrB_ne hwt)] at hc
        exact wfStrB_head hwt c hc
      have hfix : Util.normalizeSpaceChars (joinComma (t.data :: rest.map String.data)) =
          joinComma (t.data :: rest.map String.data) := by
        rw [hcons]
        exact joinComma_fix (t :: rest) h
      have hsplit : Util.splitOnChar ',' (joinComma (t.data :: rest.map String.data)) =
          t.data :: (rest.map String.data).map (fun w => ' ' :: w) := by
        refine splitComma_join (rest.map String.data) t.data
          (wfTagB_parts (h t (by simp))).2 ?_
        intro x hx
        obtain ⟨s, hs, rfl⟩ := List.mem_map.mp hx
        exact (wfTagB_parts (hrest s hs)).2
      have hmapnorm : (((rest.map String.data).map (fun w => ' ' :: w)).map
          Util.normalizeSpaceChars) = rest.map String.data := by
        rw [List.map_map, List.map_map]
        refine List.map_congr_left ?_
        intro s hs
        show Util.normalizeSpaceChars (' ' :: s.data) = s.data
        rw [Util.normalizeSpaceChars_cons_space]
        exact wfStrB_fix (wfTagB_parts (hrest s hs)).1
      rw [hdrop, hfix, if_neg hne, hsplit, List.map_cons, wfStrB_fix hwt, hmapnorm]
      have hfilter : (t.data :: rest.map String.data).filter (fun x => x ≠ []) =
          t.data :: rest.map String.data := by
        rw [List.filter_eq_self]
        intro a ha
        rcases List.mem_cons.mp ha with h2 | h2
        · subst h2
          simpa using wfStrB_ne hwt
        · obtain ⟨s, hs, rfl⟩ := List.mem_map.mp h2
          simpa using wfStrB_ne (wfTagB_parts (hrest s hs)).1
      rw [hfilter, List.map_cons, List.map_map]
      have hmapmk : rest.map ((fun t => (⟨t⟩ : String)) ∘ String.data) = rest := by
        refine Eq.trans (List.map_congr_left ?_) (List.map_id rest)
        intro s _
        rfl
      rw [hmapmk]

theorem parseLine_tags (fid fts : String) (g : GoalRecord) (G : List GoalRecord)
    (ts : List String) (h : ∀ t ∈ ts, wfTagB t = true) :
    parseLine fid fts ⟨some g, G⟩ ("- tags: ".data ++ joinComma (ts.map String.data)) =
      ⟨some { g with tags := ts }, G⟩ := by
  rw [parseLine_tags_raw, tagsOfRaw_join ts h]

end Mem
end Spec2Proof

namespace Spec2Proof
namespace Mem

theorem bracketSplits_no (l : List Char) (h : ']' ∉ l) : bracketSplits l = [] := by
  induction l with
  | nil => rfl
  | cons c cs ih =>
      have hc : ¬ c = ']' := fun hcon => h (hcon ▸ List.mem_cons_self c cs)
      have hcs : ']' ∉ cs := fun hcon => h (List.mem_cons_of_mem c hcon)
      simp [bracketSplits, hc, ih hcs]

theorem bracketSplits_unique (a b : List Char) (ha : ']' ∉ a) (hb : ']' ∉ b) :
    bracketSplits (a ++ ']' :: b) = [(a, b)] := by
  induction a with
  | nil => simp [bracketSplits, bracketSplits_no b hb]
  | cons c cs ih =>
      have hc : ¬ c = ']' := fun hcon => ha (hcon ▸ List.mem_cons_self c cs)
      have hcs : ']' ∉ cs := fun hcon => ha (List.mem_cons_of_mem c hcon)
      simp [bracketSplits, hc, ih hcs]

theorem parseAfterBracket_std (src : GoalSource) (N : List Char) :
    parseAfterBracket (' ' :: '(' :: ((sourceString src).data ++ ')' :: ' ' :: N)) =
      (wsCapture (' ' :: N)).map (fun cap => (src, cap)) := by
  cases src <;> rfl

theorem matchProgress_std (A : List Char) (hAbr : ']' ∉ A) (hAe : A.isEmpty = false)
    (src : GoalSource) (N : List Char) (hNbr : ']' ∉ N) (hNne : N ≠ [])
    (hNhead : ∀ c, N.head? = some c → Util.isWs c = false) :
    matchProgress ("- [".data ++ (A ++ ']' :: ' ' :: '(' ::
        ((sourceString src).data ++ ')' :: ' ' :: N))) = some (A, src, N) := by
  have hb : ']' ∉ (' ' :: '(' :: ((sourceString src).data ++ ')' :: ' ' :: N)) := by
    intro hcon
    rcases List.mem_cons.mp hcon with h1 | h1
    · exact absurd h1 (by decide)
    rcases List.mem_cons.mp h1 with h2 | h2
    · exact absurd h2 (by decide)
    rcases List.mem_append.mp h2 with h3 | h3
    · cases src <;> exact absurd h3 (by decide)
    rcases List.mem_cons.mp h3 with h4 | h4
    · exact absurd h4 (by decide)
    rcases List.mem_cons.mp h4 with h5 | h5
    · exact absurd h5 (by decide)
    · exact hNbr h5
  have hstrip : stripLit "- [".data ("- [".data ++ (A ++ ']' :: ' ' :: '(' ::
      ((sourceString src).data ++ ')' :: ' ' :: N))) = some (A ++ ']' :: ' ' :: '(' ::
      ((sourceString src).data ++ ')' :: ' ' :: N)) := rfl
  unfold matchProgress
  rw [hstrip, Option.some_bind, bracketSplits_unique A _ hAbr hb]
  simp [lastValidSplit, hAe, parseAfterBracket_std, wsCapture_space N hNne hNhead]

theorem parseLine_progress (fid fts : String) (g : GoalRecord) (G : List GoalRecord)
    (p : GoalProgressEntry) (hwf : wfEntryB p = true) :
    parseLine fid fts ⟨some g, G⟩ (progressLine p) =
      ⟨some { g with progress := g.progress ++ [p] }, G⟩ := by
  obtain ⟨h1, hbr1, hna, h2, hbr2, hp⟩ := wfEntryB_parts hwf
  have hshape : progressLine p = "- [".data ++ (p.entryAt.data ++ ']' :: ' ' :: '(' ::
      ((sourceString p.source).data ++ ')' :: ' ' :: p.note.data)) := by
    unfold progressLine
    rw [safeNote_eq (wfStrB_fix h2) hp]
    simp only [List.append_assoc]
    rfl
  rw [hshape]
  have hAe : p.entryAt.data.isEmpty = false := by
    cases hA : p.entryAt.data with
    | nil => exact absurd hA (wfStrB_ne h1)
    | cons d r => rfl
  have hmp := matchProgress_std p.entryAt.data hbr1 hAe p.source p.note.data hbr2
    (wfStrB_ne h2) (wfStrB_head h2)
  have hm0 : matchKeyVal "## Goal:" ("- [".data ++ (p.entryAt.data ++ ']' :: ' ' :: '(' ::
      ((sourceString p.source).data ++ ')' :: ' ' :: p.note.data))) = none := rfl
  have hm1 : matchKeyVal "- id:" ("- [".data ++ (p.entryAt.data ++ ']' :: ' ' :: '(' ::
      ((sourceString p.source).data ++ ')' :: ' ' :: p.note.data))) = none := rfl
  have hm2 : matchKeyVal "- status:" ("- [".data ++ (p.entryAt.data ++ ']' :: ' ' :: '(' ::
      ((sourceString p.source).data ++ ')' :: ' ' :: p.note.data))) = none := rfl
  have hm3 : matchKeyVal "- created_at:" ("- [".data ++ (p.entryAt.data ++ ']' :: ' ' :: '(' ::
      ((sourceString p.source).data ++ ')' :: ' ' :: p.note.data))) = none := rfl
  have hm4 : matchKeyVal "- updated_at:" ("- [".data ++ (p.entryAt.data ++ ']' :: ' ' :: '(' ::
      ((sourceString p.source).data ++ ')' :: ' ' :: p.note.data))) = none := rfl
  have hm5 : (stripLit "- tags:".data ("- [".data ++ (p.entryAt.data ++ ']' :: ' ' :: '(' ::
      ((sourceString p.source).data ++ ')' :: ' ' :: p.note.data)))).map
      (fun r => r.dropWhile Util.isWs) = none := rfl
  unfold parseLine
  rw [hm0, hm1, hm2, hm3, hm4, hm5, hmp]
  show (if Util.normalizeSpaceChars p.note.data ≠ [] ∧
        Util.normalizeSpaceChars p.entryAt.data ≠ "n/a".data then
      (⟨some { g with progress := g.progress ++
        [{ entryAt := ⟨Util.normalizeSpaceChars p.entryAt.data⟩, source := p.source,
           note := ⟨Util.normalizeSpaceChars p.note.data⟩ }] }, G⟩ : ParseAcc)
      else ⟨some g, G⟩) = _
  rw [wfStrB_fix h1, wfStrB_fix h2]
  rw [if_pos ⟨wfStrB_ne h2, fun hcon => hna (congrArg String.mk hcon)⟩]

theorem parseLine_progressHeader (fid fts : String) (g : GoalRecord) (G : List GoalRecord) :
    parseLine fid fts ⟨some g, G⟩ "### Progress".data = ⟨some g, G⟩ := rfl

theorem parseLine_placeholder (fid fts : String) (g : GoalRecord) (G : List GoalRecord) :
    parseLine fid fts ⟨some g, G⟩ "- [n/a] (system) no progress logged".data =
      ⟨some g, G⟩ := rfl

theorem parseLine_empty_line (fid fts : String) (g : GoalRecord) (G : List GoalRecord) :
    parseLine fid fts ⟨some g, G⟩ [] = ⟨some g, G⟩ := rfl

theorem parseLine_headerLines (fid fts : String) :
    List.foldl (parseLine fid fts) ⟨none, []⟩ headerLines = ⟨none, []⟩ := rfl

end Mem
end Spec2Proof

namespace Spec2Proof
namespace Util

theorem mem_flatMapL (f : α → List β) (l : List α) (c : β) (h : c ∈ flatMapL f l) :
    ∃ a ∈ l, c ∈ f a := by
  induction l with
  | nil => simp [flatMapL] at h
  | cons a t ih =>
      rcases List.mem_append.mp h with h1 | h1
      · exact ⟨a, List.mem_cons_self a t, h1⟩
      · obtain ⟨x, hx, hc⟩ := ih h1
        exact ⟨x, List.mem_cons_of_mem a hx, hc⟩

end Util

namespace Mem

theorem mem_insertByUpdatedDesc (g : GoalRecord) (l : List GoalRecord) (x : GoalRecord)
    (h : x ∈ insertByUpdatedDesc g l) : x = g ∨ x ∈ l := by
  induction l with
  | nil => exact Or.inl (List.mem_singleton.mp h)
  | cons a t ih =>
      unfold insertByUpdatedDesc at h
      by_cases hc : g.updatedAt < a.updatedAt
      · rw [if_pos hc] at h
        rcases List.mem_cons.mp h with h1 | h1
        · exact Or.inr (h1 ▸ List.mem_cons_self a t)
        · rcases ih h1 with h2 | h2
          · exact Or.inl h2
          · exact Or.inr (List.mem_cons_of_mem a h2)
      · rw [if_neg hc] at h
        rcases List.mem_cons.mp h with h1 | h1
        · exact Or.inl h1
        · exact Or.inr h1

theorem mem_sortByUpdatedDesc (l : List GoalRecord) (x : GoalRecord)
    (h : x ∈ sortByUpdatedDesc l) : x ∈ l := by
  induction l with
  | nil => exact absurd h (List.not_mem_nil x)
  | cons a t ih =>
      have h' : x ∈ insertByUpdatedDesc a (sortByUpdatedDesc t) := h
      rcases mem_insertByUpdatedDesc a _ x h' with h1 | h1
      · exact h1 ▸ List.mem_cons_self a t
      · exact List.mem_cons_of_mem a (ih h1)

theorem wellFormedGoal_parts {g : GoalRecord} (h : wellFormedGoal g = true) :
    wfStrB g.id = true ∧ wfStrB g.title = true ∧ wfStrB g.createdAt = true ∧
      wfStrB g.updatedAt = true ∧ (∀ t ∈ g.tags, wfTagB t = true) ∧
      g.progress.length ≤ GOAL_PROGRESS_LIMIT ∧
      (∀ p ∈ g.progress, wfEntryB p = true) := by
  simp only [wellFormedGoal, Bool.and_eq_true, decide_eq_true_eq,
    List.all_eq_true] at h
  obtain ⟨⟨⟨⟨⟨⟨h1, h2⟩, h3⟩, h4⟩, h5⟩, h6⟩, h7⟩ := h
  exact ⟨h1, h2, h3, h4, h5, h6, h7⟩

theorem flushCurrent_wf (g : GoalRecord) (G : List GoalRecord)
    (hwf : wellFormedGoal g = true) :
    flushCurrent ⟨some g, G⟩ = ⟨none, G ++ [g]⟩ := by
  obtain ⟨-, -, -, -, -, hlen, hps⟩ := wellFormedGoal_parts hwf
  have hfil : g.progress.filter (fun p => Util.trimChars p.note.data ≠ []) = g.progress := by
    rw [List.filter_eq_self]
    intro p hp
    have h2 := (wfEntryB_parts (hps p hp)).2.2.2.1
    have htr : Util.trimChars p.note.data = p.note.data :=
      Util.trimChars_eq_self _ (wfStrB_head h2) (wfStrB_last h2)
    simpa [htr] using wfStrB_ne h2
  have htake : takeLast GOAL_PROGRESS_LIMIT g.progress = g.progress := by
    unfold takeLast
    rw [Nat.sub_eq_zero_of_le hlen, List.drop_zero]
  have key : flushCurrent ⟨some g, G⟩ = ⟨none, G ++ [{ g with progress := takeLast GOAL_PROGRESS_LIMIT (g.progress.filter (fun p => Util.trimChars p.note.data ≠ [])) }]⟩ := rfl
  rw [key, hfil, htake]

theorem flushCurrent_eta (acc : ParseAcc) :
    flushCurrent acc = ⟨none, (flushCurrent acc).goals⟩ := by
  cases acc with
  | mk cur goals =>
      cases cur with
      | none => rfl
      | some g => rfl

theorem foldl_progressLines (fid fts : String) (ps : List GoalProgressEntry) :
    ∀ (g : GoalRecord) (G : List GoalRecord), (∀ p ∈ ps, wfEntryB p = true) →
      List.foldl (parseLine fid fts) ⟨some g, G⟩ (ps.map progressLine) =
        ⟨some { g with progress := g.progress ++ ps }, G⟩ := by
  induction ps with
  | nil =>
      intro g G _
      simp
  | cons p rest ih =>
      intro g G h
      rw [List.map_cons, List.foldl_cons,
        parseLine_progress fid fts g G p (h p (List.mem_cons_self p rest))]
      rw [ih _ G (fun q hq => h q (List.mem_cons_of_mem p hq))]
      simp [List.append_assoc]

end Mem
end Spec2Proof

namespace Spec2Proof
namespace Mem

theorem foldl_goalBlock (fid fts : String) (g : GoalRecord) (acc : ParseAcc)
    (hwf : wellFormedGoal g = true) :
    List.foldl (parseLine fid fts) acc (goalBlock g) =
      ⟨some g, (flushCurrent acc).goals⟩ := by
  obtain ⟨hid, htitle, hcr, hup, htags, hlen, hps⟩ := wellFormedGoal_parts hwf
  have h7 : List.foldl (parseLine fid fts) acc
      ["## Goal: ".data ++ g.title.data, "- id: ".data ++ g.id.data,
       "- status: ".data ++ (statusString g.status).data,
       "- created_at: ".data ++ g.createdAt.data,
       "- updated_at: ".data ++ g.updatedAt.data,
       "- tags: ".data ++ joinComma (g.tags.map String.data),
       "### Progress".data] =
      ⟨some { id := g.id, title := g.title, status := g.status, createdAt := g.createdAt,
              updatedAt := g.updatedAt, tags := g.tags, progress := [] },
       (flushCurrent acc).goals⟩ := by
    simp only [List.foldl_cons, List.foldl_nil]
    rw [parseLine_goalHeader fid fts acc g.title htitle]
    rw [parseLine_id fid fts _ _ g.id hid]
    rw [parseLine_status fid fts _ _ g.status]
    rw [parseLine_createdAt fid fts _ _ g.createdAt hcr]
    rw [parseLine_updatedAt fid fts _ _ g.updatedAt hup]
    rw [parseLine_tags fid fts _ _ g.tags htags]
    rw [parseLine_progressHeader fid fts _ _]
  cases hgp : g.progress with
  | nil =>
      have hblock : goalBlock g =
          ["## Goal: ".data ++ g.title.data, "- id: ".data ++ g.id.data,
           "- status: ".data ++ (statusString g.status).data,
           "- created_at: ".data ++ g.createdAt.data,
           "- updated_at: ".data ++ g.updatedAt.data,
           "- tags: ".data ++ joinComma (g.tags.map String.data),
           "### Progress".data] ++
          ["- [n/a] (system) no progress logged".data, []] := by
        unfold goalBlock
        rw [hgp]
        rfl
      rw [hblock, List.foldl_append, h7, List.foldl_cons, List.foldl_cons, List.foldl_nil,
        parseLine_placeholder, parseLine_empty_line]
      have hg : ({ id := g.id, title := g.title, status := g.status, createdAt := g.createdAt, updatedAt := g.updatedAt, tags := g.tags, progress := [] } : GoalRecord) = g := by
        rw [← hgp]
      rw [hg]
  | cons p ps' =>
      have hpwf : ∀ q ∈ p :: ps', wfEntryB q = true := by
        rw [← hgp]
        exact hps
      have hblock : goalBlock g =
          ["## Goal: ".data ++ g.title.data, "- id: ".data ++ g.id.data,
           "- status: ".data ++ (statusString g.status).data,
           "- created_at: ".data ++ g.createdAt.data,
           "- updated_at: ".data ++ g.updatedAt.data,
           "- tags: ".data ++ joinComma (g.tags.map String.data),
           "### Progress".data] ++
          ((p :: ps').map progressLine ++ [[]]) := by
        unfold goalBlock
        rw [hgp]
        rfl
      rw [hblock, List.foldl_append, h7, List.foldl_append,
        foldl_progressLines fid fts (p :: ps') _ _ hpwf, List.foldl_cons, List.foldl_nil,
        parseLine_empty_line]
      have hg : ({ id := g.id, title := g.title, status := g.status, createdAt := g.createdAt, updatedAt := g.updatedAt, tags := g.tags, progress := [] ++ p :: ps' } : GoalRecord) = g := by
        rw [List.nil_append, ← hgp]
      rw [hg]

theorem foldl_blocks (fid fts : String) (gs : List GoalRecord) :
    ∀ acc : ParseAcc, (∀ g ∈ gs, wellFormedGoal g = true) →
      flushCurrent (List.foldl (parseLine fid fts) acc (Util.flatMapL goalBlock gs)) =
        ⟨none, (flushCurrent acc).goals ++ gs⟩ := by
  induction gs with
  | nil =>
      intro acc _
      show flushCurrent (List.foldl (parseLine fid fts) acc []) = _
      rw [List.foldl_nil, List.append_nil]
      exact flushCurrent_eta acc
  | cons g rest ih =>
      intro acc h
      have hsplit : Util.flatMapL goalBlock (g :: rest) =
          goalBlock g ++ Util.flatMapL goalBlock rest := rfl
      rw [hsplit, List.foldl_append, foldl_goalBlock fid fts g acc
        (h g (List.mem_cons_self g rest))]
      rw [ih ⟨some g, (flushCurrent acc).goals⟩
        (fun x hx => h x (List.mem_cons_of_mem g hx))]
      rw [flushCurrent_wf g _ (h g (List.mem_cons_self g rest))]
      simp

theorem parse_serializeLines (fid fts : String) (gs : List GoalRecord)
    (h : ∀ g ∈ gs, wellFormedGoal g = true) :
    (flushCurrent (List.foldl (parseLine fid fts) ⟨none, []⟩
      (headerLines ++ Util.flatMapL goalBlock gs))).goals = gs := by
  rw [List.foldl_append, parseLine_headerLines, foldl_blocks fid fts gs ⟨none, []⟩ h]
  rfl

end Mem
end Spec2Proof

namespace Spec2Proof
namespace Util

theorem splitLines_render2 (lines : List (List Char))
    (hnl : ∀ l ∈ lines, NlFree l)
    (init : List (List Char)) (last : List Char)
    (hshape : lines = init ++ [last, []])
    (hne : last ≠ [])
    (hlast : ∀ c, last.getLast? = some c → isWs c = false) :
    splitLines (trimRightChars (joinLines lines) ++ ['\n']) = lines := by
  have hld : last.dropLast ++ [last.getLast hne] = last :=
    List.dropLast_append_getLast hne
  refine splitLines_render lines hnl init last.dropLast (last.getLast hne) ?_
    (hlast _ (List.getLast?_eq_getLast last hne))
  rw [hld, hshape]
  simp [List.append_assoc]

end Util

namespace Mem

theorem progressLine_ne_nil (p : GoalProgressEntry) : progressLine p ≠ [] := by
  unfold progressLine
  simp

theorem progressLine_getLast (p : GoalProgressEntry) (hwf : wfEntryB p = true) :
    ∀ c, (progressLine p).getLast? = some c → Util.isWs c = false := by
  obtain ⟨-, -, -, h2, -, hp⟩ := wfEntryB_parts hwf
  intro c hc
  unfold progressLine at hc
  rw [safeNote_eq (wfStrB_fix h2) hp,
    List.getLast?_append_of_ne_nil _ (wfStrB_ne h2)] at hc
  exact wfStrB_last h2 c hc

theorem goalBlock_nlFree (g : GoalRecord) (hwf : wellFormedGoal g = true) :
    ∀ l ∈ goalBlock g, Util.NlFree l := by
  obtain ⟨hid, htitle, hcr, hup, htags, -, hps⟩ := wellFormedGoal_parts hwf
  have hhead : ∀ l ∈ ["## Goal: ".data ++ g.title.data, "- id: ".data ++ g.id.data,
      "- status: ".data ++ (statusString g.status).data,
      "- created_at: ".data ++ g.createdAt.data,
      "- updated_at: ".data ++ g.updatedAt.data,
      "- tags: ".data ++ joinComma (g.tags.map String.data),
      "### Progress".data], Util.NlFree l := by
    intro l hl
    rcases List.mem_cons.mp hl with rfl | h3
    · exact Util.NlFree.append ⟨by decide, by decide⟩ (wfStrB_nlFree htitle)
    rcases List.mem_cons.mp h3 with rfl | h4
    · exact Util.NlFree.append ⟨by decide, by decide⟩ (wfStrB_nlFree hid)
    rcases List.mem_cons.mp h4 with rfl | h5
    · exact Util.NlFree.append ⟨by decide, by decide⟩
        (wfStrB_nlFree (statusString_wf g.status))
    rcases List.mem_cons.mp h5 with rfl | h6
    · exact Util.NlFree.append ⟨by decide, by decide⟩ (wfStrB_nlFree hcr)
    rcases List.mem_cons.mp h6 with rfl | h7
    · exact Util.NlFree.append ⟨by decide, by decide⟩ (wfStrB_nlFree hup)
    rcases List.mem_cons.mp h7 with rfl | h8
    · refine Util.NlFree.append ⟨by decide, by decide⟩ (nlFree_joinComma _ ?_)
      intro t ht
      obtain ⟨s, hs, rfl⟩ := List.mem_map.mp ht
      exact wfStrB_nlFree (wfTagB_parts (htags s hs)).1
    rcases List.mem_cons.mp h8 with rfl | h9
    · exact ⟨by decide, by decide⟩
    · exact absurd h9 (List.not_mem_nil l)
  intro l hl
  cases hgp : g.progress with
  | nil =>
      have hblock : goalBlock g =
          ["## Goal: ".data ++ g.title.data, "- id: ".data ++ g.id.data,
           "- status: ".data ++ (statusString g.status).data,
           "- created_at: ".data ++ g.createdAt.data,
           "- updated_at: ".data ++ g.updatedAt.data,
           "- tags: ".data ++ joinComma (g.tags.map String.data),
           "### Progress".data] ++
          ["- [n/a] (system) no progress logged".data, []] := by
        unfold goalBlock
        rw [hgp]
        rfl
      rw [hblock] at hl
      rcases List.mem_append.mp hl with h1 | h1
      · exact hhead l h1
      rcases List.mem_cons.mp h1 with rfl | h2
      · exact ⟨by decide, by decide⟩
      rcases List.mem_cons.mp h2 with rfl | h3
      · exact ⟨List.not_mem_nil _, List.not_mem_nil _⟩
      · exact absurd h3 (List.not_mem_nil l)
  | cons p ps' =>
      have hblock : goalBlock g =
          ["## Goal: ".data ++ g.title.data, "- id: ".data ++ g.id.data,
           "- status: ".data ++ (statusString g.status).data,
           "- created_at: ".data ++ g.createdAt.data,
           "- updated_at: ".data ++ g.updatedAt.data,
           "- tags: ".data ++ joinComma (g.tags.map String.data),
           "### Progress".data] ++
          ((p :: ps').map progressLine ++ [[]]) := by
        unfold goalBlock
        rw [hgp]
        rfl
      rw [hblock] at hl
      rcases List.mem_append.mp hl with h1 | h1
      · exact hhead l h1
      rcases List.mem_append.mp h1 with h2 | h2
      · obtain ⟨q, hq, rfl⟩ := List.mem_map.mp h2
        exact progressLine_nlFree q (hps q (hgp ▸ hq))
      rcases List.mem_cons.mp h2 with rfl | h3
      · exact ⟨List.not_mem_nil _, List.not_mem_nil _⟩
      · exact absurd h3 (List.not_mem_nil l)

theorem goalBlock_shape (g : GoalRecord) (hwf : wellFormedGoal g = true) :
    ∃ initb lastb, goalBlock g = initb ++ [lastb, []] ∧ lastb ≠ [] ∧
      (∀ c, lastb.getLast? = some c → Util.isWs c = false) := by
  obtain ⟨-, -, -, -, -, -, hps⟩ := wellFormedGoal_parts hwf
  cases hgp : g.progress with
  | nil =>
      refine ⟨["## Goal: ".data ++ g.title.data, "- id: ".data ++ g.id.data,
           "- status: ".data ++ (statusString g.status).data,
           "- created_at: ".data ++ g.createdAt.data,
           "- updated_at: ".data ++ g.updatedAt.data,
           "- tags: ".data ++ joinComma (g.tags.map String.data),
           "### Progress".data],
        "- [n/a] (system) no progress logged".data, ?_, by decide, by decide⟩
      unfold goalBlock
      rw [hgp]
      rfl
  | cons p ps' =>
      have hlastne : (p :: ps') ≠ [] := List.cons_ne_nil p ps'
      have hqmem : (p :: ps').getLast hlastne ∈ p :: ps' := List.getLast_mem hlastne
      have hqmem' : (p :: ps').getLast hlastne ∈ g.progress := by
        rw [hgp]
        exact hqmem
      have hqwf : wfEntryB ((p :: ps').getLast hlastne) = true := hps _ hqmem'
      refine ⟨["## Goal: ".data ++ g.title.data, "- id: ".data ++ g.id.data,
           "- status: ".data ++ (statusString g.status).data,
           "- created_at: ".data ++ g.createdAt.data,
           "- updated_at: ".data ++ g.updatedAt.data,
           "- tags: ".data ++ joinComma (g.tags.map String.data),
           "### Progress".data] ++ (((p :: ps').dropLast).map progressLine),
        progressLine ((p :: ps').getLast hlastne), ?_,
        progressLine_ne_nil _, progressLine_getLast _ hqwf⟩
      have hblock : goalBlock g =
          ["## Goal: ".data ++ g.title.data, "- id: ".data ++ g.id.data,
           "- status: ".data ++ (statusString g.status).data,
           "- created_at: ".data ++ g.createdAt.data,
           "- updated_at: ".data ++ g.updatedAt.data,
           "- tags: ".data ++ joinComma (g.tags.map String.data),
           "### Progress".data] ++
          ((p :: ps').map progressLine ++ [[]]) := by
        unfold goalBlock
        rw [hgp]
        rfl
      rw [hblock]
      conv_lhs => rw [show (p :: ps') = (p :: ps').dropLast ++ [(p :: ps').getLast hlastne]
        from (List.dropLast_append_getLast hlastne).symm]
      rw [List.map_append]
      simp [List.append_assoc]

theorem flatMapL_goalBlock_shape (gs : List GoalRecord) :
    ∀ (_ : gs ≠ []) (_ : ∀ g ∈ gs, wellFormedGoal g = true),
      ∃ initb lastb, Util.flatMapL goalBlock gs = initb ++ [lastb, []] ∧ lastb ≠ [] ∧
        (∀ c, lastb.getLast? = some c → Util.isWs c = false) := by
  induction gs with
  | nil => intro hne _; exact absurd rfl hne
  | cons g rest ih =>
      intro _ hwf
      cases rest with
      | nil =>
          obtain ⟨initb, lastb, hshape, hne', hlast⟩ :=
            goalBlock_shape g (hwf g (List.mem_cons_self g []))
          refine ⟨initb, lastb, ?_, hne', hlast⟩
          show goalBlock g ++ Util.flatMapL goalBlock [] = _
          rw [show Util.flatMapL goalBlock ([] : List GoalRecord) = [] from rfl,
            List.append_nil, hshape]
      | cons g2 rest' =>
          obtain ⟨initb, lastb, hshape, hne', hlast⟩ := ih (List.cons_ne_nil g2 rest')
            (fun x hx => hwf x (List.mem_cons_of_mem g hx))
          refine ⟨goalBlock g ++ initb, lastb, ?_, hne', hlast⟩
          show goalBlock g ++ Util.flatMapL goalBlock (g2 :: rest') = _
          rw [hshape, ← List.append_assoc]

theorem serializeLines_nlFree (s : GoalsState) (hwf : wellFormedGoals s.goals = true) :
    ∀ l ∈ serializeLines s, Util.NlFree l := by
  intro l hl
  unfold serializeLines at hl
  rcases List.mem_append.mp hl with h1 | h1
  · have hh : ∀ x ∈ headerLines, Util.NlFree x := by
      intro x hx
      fin_cases hx <;> exact ⟨by decide, by decide⟩
    exact hh l h1
  · obtain ⟨g, hg, hlg⟩ := Util.mem_flatMapL _ _ l h1
    have hgwf : wellFormedGoal g = true := by
      have hmem := mem_sortByUpdatedDesc s.goals g hg
      simp only [wellFormedGoals, List.all_eq_true] at hwf
      exact hwf g hmem
    exact goalBlock_nlFree g hgwf l hlg

theorem splitLines_serialize (s : GoalsState) (hwf : wellFormedGoals s.goals = true) :
    Util.splitLines (serializeGoalStateMarkdown s).data = serializeLines s := by
  have hnl := serializeLines_nlFree s hwf
  have hdata : (serializeGoalStateMarkdown s).data =
      Util.trimRightChars (Util.joinLines (serializeLines s)) ++ ['\n'] := rfl
  rw [hdata]
  cases hsort : sortByUpdatedDesc s.goals with
  | nil =>
      refine Util.splitLines_render2 _ hnl
        ["# Goals Memory".data, [], "Persistent mission tracking for Oasis.".data, []]
        "## Goals".data ?_ (by decide) (by decide)
      unfold serializeLines
      rw [hsort]
      rfl
  | cons g rest =>
      have hw : ∀ x ∈ g :: rest, wellFormedGoal x = true := by
        intro x hx
        have hx' : x ∈ sortByUpdatedDesc s.goals := hsort ▸ hx
        have hmem := mem_sortByUpdatedDesc s.goals x hx'
        simp only [wellFormedGoals, List.all_eq_true] at hwf
        exact hwf x hmem
      obtain ⟨initb, lastb, hshape, hne', hlast⟩ :=
        flatMapL_goalBlock_shape (g :: rest) (List.cons_ne_nil g rest) hw
      refine Util.splitLines_render2 _ hnl (headerLines ++ initb) lastb ?_ hne' hlast
      unfold serializeLines
      rw [hsort, hshape, ← List.append_assoc]

end Mem
end Spec2Proof

namespace Spec2Proof
namespace Mem

/-- C7: round trip of the goals store through the markdown serializer and
parser. For every goals state whose fields are in the normalized form the
memory manager itself writes (non-empty whitespace-normalized strings, no `]`
or `|` where the line grammar reserves them, comma-free tags, at most
`GOAL_PROGRESS_LIMIT` progress entries), parsing the serialized markdown
yields exactly the goals of the state, reordered by `updatedAt` descending,
with the store version fixed at 2. -/
theorem goals_roundtrip_wellformed (fid fts : String) (s : GoalsState)
    (hwf : wellFormedGoals s.goals = true) :
    parseGoalStateMarkdown fid fts (serializeGoalStateMarkdown s) =
      { version := 2, goals := sortByUpdatedDesc s.goals } := by
  have hsortwf : ∀ g ∈ sortByUpdatedDesc s.goals, wellFormedGoal g = true := by
    intro g hg
    have hmem := mem_sortByUpdatedDesc s.goals g hg
    simp only [wellFormedGoals, List.all_eq_true] at hwf
    exact hwf g hmem
  have hkey : parseGoalStateMarkdown fid fts (serializeGoalStateMarkdown s) =
      { version := 2, goals := (flushCurrent (List.foldl (parseLine fid fts) ⟨none, []⟩
        (Util.splitLines (serializeGoalStateMarkdown s).data))).goals } := rfl
  rw [hkey, splitLines_serialize s hwf]
  unfold serializeLines
  rw [parse_serializeLines fid fts _ hsortwf]

/-- Witness for C7: the concrete well-formed two-entry goal `goalWf` satisfies
the hypothesis and round-trips. -/
theorem goals_roundtrip_wellformed_witness :
    wellFormedGoals ({ version := 2, goals := [goalWf] } : GoalsState).goals = true ∧
      parseGoalStateMarkdown "goal_x" "2024-03-01T00:00:00.000Z"
        (serializeGoalStateMarkdown { version := 2, goals := [goalWf] }) =
        { version := 2, goals := sortByUpdatedDesc [goalWf] } :=
  ⟨by decide, goals_roundtrip_wellformed "goal_x" "2024-03-01T00:00:00.000Z"
    { version := 2, goals := [goalWf] } (by decide)⟩

/-- C7 counterexample: the goals state whose single progress note is `a|b`
does not round trip — the serializer rewrites the pipe to `/`, so the parsed
single goal differs from the original (its note reads `a/b`), refuting the
unconditional round-trip claim even up to reordering. -/
theorem goals_roundtrip_pipe_note_cx :
    (parseGoalStateMarkdown "goal_x" "2024-03-01T00:00:00.000Z"
        (serializeGoalStateMarkdown { version := 2, goals := [goalCx] })).goals ≠
        [goalCx] ∧
      (parseGoalStateMarkdown "goal_x" "2024-03-01T00:00:00.000Z"
        (serializeGoalStateMarkdown { version := 2, goals := [goalCx] })).goals.map
        (fun g => g.progress.map (fun p => p.note)) = [["a/b"]] := by decide

end Mem
end Spec2Proof
